import Mathlib

/-!
# Verification of the semantic matching engine (ai-service)

A shallow embedding, in Lean 4, of the core of the `ai-service` package:
the in-memory vector store (`services/vector_store.py`), the text
preprocessing utilities (`utils/preprocessing.py`), the fallback embedding
seed derivation (`services/embeddings.py`), the pathway recommender
(`models/pathway_recommender.py`), and the level-compatibility check of the
credit assessor (`models/credit_assessor.py`).

Modelling conventions:
* Python floats are idealised as exact rationals (`ℚ`).  Cosine similarity
  values `dot(v,q) / (‖v‖·‖q‖)` are irrational in general, so they are
  represented exactly by the pair `SimVal = (dot, ‖v‖²·‖q‖²)` denoting
  `dot / √nsq`; comparisons on `SimVal` are the real-number comparisons,
  implemented by sign analysis and cross-multiplied squares.
* Python `dict`s that map ids to positions are modelled as insertion-ordered
  association lists with unique keys (the behaviour CPython guarantees).
* numpy row matrices are modelled as lists of rows (`List (List ℚ)`).
* Text is modelled at the ASCII level: `str.lower`, `\w`, `\s` are given
  their ASCII semantics, which is what every input exercised here uses.
-/

/-! ## Exact representation of cosine-similarity values -/

/-- The squared Euclidean norm `‖v‖²` of a vector (a sum of squares, hence
nonnegative). -/
def normSq (v : List ℚ) : ℚ := (v.map (fun x => x * x)).sum

/-- Dot product of two vectors.  `List.zip` truncates to the shorter list,
matching the only defined (equal-length) uses in the source; numpy raises an
untyped broadcast error on mismatched shapes. -/
def dotQ (v w : List ℚ) : ℚ := ((v.zip w).map (fun p => p.1 * p.2)).sum

/-- Exact representation of a cosine-similarity value `dot / √nsq`, where
`nsq = ‖v‖² · ‖q‖²`.  The source computes
`np.dot(vector_norms, query_norm)` = `dot(v,q) / (‖v‖·‖q‖)`; we carry the
numerator and the square of the denominator so that all comparisons made by
the code stay in exact rational arithmetic. -/
structure SimVal where
  dot : ℚ
  nsq : ℚ
deriving DecidableEq

/-- `simLE a b` decides `a.dot / √a.nsq ≤ b.dot / √b.nsq` (for `nsq > 0`) by
sign analysis and comparison of cross-multiplied squares. -/
def simLE (a b : SimVal) : Bool :=
  if a.dot < 0 then
    (if 0 ≤ b.dot then true else decide (b.dot * b.dot * a.nsq ≤ a.dot * a.dot * b.nsq))
  else
    (if b.dot < 0 then false else decide (a.dot * a.dot * b.nsq ≤ b.dot * b.dot * a.nsq))

/-- Strict version of `simLE`. -/
def simLT (a b : SimVal) : Bool := !(simLE b a)

/-- `simGeQ s t` decides `s.dot / √s.nsq ≥ t` for a rational threshold `t`;
this is the `similarities >= threshold` mask of `VectorStore.search`. -/
def simGeQ (s : SimVal) (t : ℚ) : Bool :=
  if 0 ≤ s.dot then
    (if t ≤ 0 then true else decide (t * t * s.nsq ≤ s.dot * s.dot))
  else
    (if 0 ≤ t then false else decide (s.dot * s.dot ≤ t * t * s.nsq))

/-! ## The vector store (`services/vector_store.py`, class `VectorStore`) -/

/-- Model of `VectorStore.__init__` state: `dimension`, the `(n, d)` row
matrix `vectors`, the parallel `metadata` list, and the `id_to_index` dict
(an insertion-ordered association list with unique keys). -/
structure VectorStore (α : Type) where
  dimension : Nat
  vectors : List (List ℚ)
  metadata : List α
  idToIndex : List (String × Nat)
deriving DecidableEq

/-- A fresh store, as built by `VectorStore.__init__` with no persisted
data: an empty `(0, dimension)` matrix, no metadata, an empty dict. -/
def VectorStore.empty (α : Type) (dimension : Nat) : VectorStore α :=
  ⟨dimension, [], [], []⟩

/-- Lookup in an association list (Python `dict` access /
`key in dict`). -/
def alookup (m : List (String × Nat)) (k : String) : Option Nat :=
  match m with
  | [] => none
  | p :: rest => if p.1 = k then some p.2 else alookup rest k

/-- Model of `VectorStore.add`.  Generates `f"vec_{len(self.metadata)}"`
when no id is supplied; replaces vector and metadata in place when the id is
already present; otherwise appends the row, appends the metadata and maps
the id to `len(self.metadata) - 1`.  No dimension check is performed
anywhere in the source. -/
def VectorStore.add (s : VectorStore α) (vector : List ℚ) (metadata : α)
    (vectorId : Option String) : String × VectorStore α :=
  let vid := vectorId.getD ("vec_" ++ toString s.metadata.length)
  match alookup s.idToIndex vid with
  | some idx =>
      (vid, { s with vectors := s.vectors.set idx vector,
                     metadata := s.metadata.set idx metadata })
  | none =>
      (vid, { s with vectors := s.vectors ++ [vector],
                     metadata := s.metadata ++ [metadata],
                     idToIndex := s.idToIndex ++ [(vid, s.metadata.length)] })

/-- Model of `VectorStore.add_batch`: default ids
`f"vec_{i}" for i in range(len(metadata), len(metadata) + len(vectors))`,
then element-wise `add` over `zip(vectors, metadata_list, vector_ids)`
(Python `zip` truncates to the shortest argument). -/
def VectorStore.addBatch (s : VectorStore α) (vectors : List (List ℚ))
    (metadataList : List α) (vectorIds : Option (List String)) :
    List String × VectorStore α :=
  let ids := vectorIds.getD
    ((List.range vectors.length).map (fun i => "vec_" ++ toString (s.metadata.length + i)))
  (vectors.zip (metadataList.zip ids)).foldl
    (fun acc t =>
      let r := acc.2.add t.1 t.2.1 (some t.2.2)
      (acc.1 ++ [r.1], r.2))
    ([], s)

/-- Model of `VectorStore.get`. -/
def VectorStore.get (s : VectorStore α) (vectorId : String) :
    Option (List ℚ × α) :=
  match alookup s.idToIndex vectorId with
  | none => none
  | some idx =>
      match s.vectors.get? idx, s.metadata.get? idx with
      | some v, some m => some (v, m)
      | _, _ => none

/-- Model of `VectorStore.delete`: remove row `idx` from `vectors` and
`metadata`, delete the id from the dict, and decrement every mapped index
greater than `idx`. -/
def VectorStore.delete (s : VectorStore α) (vectorId : String) :
    Bool × VectorStore α :=
  match alookup s.idToIndex vectorId with
  | none => (false, s)
  | some idx =>
      (true,
       { s with
         vectors := s.vectors.eraseIdx idx,
         metadata := s.metadata.eraseIdx idx,
         idToIndex :=
           (s.idToIndex.filter (fun p => p.1 ≠ vectorId)).map
             (fun p => if idx < p.2 then (p.1, p.2 - 1) else p) })

/-- Model of `VectorStore.size`: `len(self.metadata)`. -/
def VectorStore.size (s : VectorStore α) : Nat := s.metadata.length

/-- Model of `VectorStore.clear`: empty matrix, metadata and dict; the
dimension is retained. -/
def VectorStore.clear (s : VectorStore α) : VectorStore α :=
  ⟨s.dimension, [], [], []⟩

/-- Inversion of `id_to_index` (`index_to_id = {v: k for k, v in ...}`)
followed by the `index_to_id[actual_idx]` lookup of `search`.  Under the
store invariant the mapped indices are distinct, so taking the first match
agrees with the Python comprehension (which keeps the last); the `""`
default is never reached under the invariant (Python would raise
`KeyError`). -/
def idOfIndex (m : List (String × Nat)) (i : Nat) : String :=
  match m.find? (fun p => p.2 = i) with
  | some p => p.1
  | none => ""

/-- Stable insertion of an entry into a list sorted ascending by `simLE`
on the second component: the entry is placed after all entries it does not
strictly precede (ties keep the existing order). -/
def simInsert (x : Nat × SimVal) : List (Nat × SimVal) → List (Nat × SimVal)
  | [] => [x]
  | y :: ys => if simLT x.2 y.2 then x :: y :: ys else y :: simInsert x ys

/-- Stable ascending insertion sort by similarity, processing entries in
index order; models the deterministic behaviour of numpy ascending
`argsort` on the inputs exercised here (numpy leaves the order of exact
ties implementation-defined in general; small inputs are insertion-sorted,
which is stable). -/
def simSortAsc (l : List (Nat × SimVal)) : List (Nat × SimVal) :=
  l.foldl (fun acc x => simInsert x acc) []

/-- Model of `VectorStore.search`.

* empty store: return `[]` (before any dimension-dependent computation);
* similarities = `np.dot(vectors / ‖rows‖, query / ‖query‖)`, carried
  exactly as `SimVal`s paired with their original row index;
* threshold mask `similarities >= threshold` keeping original indices;
* top-k: the source runs
  `np.argpartition(similarities, -top_k)[-top_k:]` and then sorts the
  selected slice descending.  For `top_k ≥ 1` this selects the `top_k`
  largest entries; for `top_k = 0` the Python slice `[-0:]` is the whole
  array, so every surviving record is returned.  When
  `len(similarities) <= top_k` the source sorts everything descending.
  All branches are uniformly `(stable ascending sort).reverse`, truncated
  to `top_k` except in the `top_k = 0` slice case;
* results are `(index_to_id[idx], similarity, metadata[idx])`; the
  `metadata.getD` default is unreachable under the store invariant
  (Python would raise `IndexError`). -/
def VectorStore.searchEntries (s : VectorStore α) (queryVector : List ℚ)
    (topK : Nat) (threshold : Option ℚ) : List (Nat × SimVal) :=
  if s.vectors.length = 0 then []
  else
    let sims := s.vectors.map
      (fun v => SimVal.mk (dotQ v queryVector) (normSq v * normSq queryVector))
    let indexed := (List.range sims.length).zip sims
    let filtered :=
      match threshold with
      | some t => indexed.filter (fun p => simGeQ p.2 t)
      | none => indexed
    let ordered := (simSortAsc filtered).reverse
    if topK = 0 ∧ topK < filtered.length then ordered else ordered.take topK

/-- The result rows of `VectorStore.search`: each selected `(row index,
similarity)` entry becomes `(index_to_id[idx], similarity, metadata[idx])`. -/
def VectorStore.search [Inhabited α] (s : VectorStore α) (queryVector : List ℚ)
    (topK : Nat) (threshold : Option ℚ) : List (String × SimVal × α) :=
  (s.searchEntries queryVector topK threshold).map
    (fun p => (idOfIndex s.idToIndex p.1, p.2, s.metadata.getD p.1 default))

/-! ## Persistence (`VectorStore.save` / `VectorStore.load`) -/

/-- The persisted record: the JSON object written by `VectorStore.save`
(`dimension`, `vectors`, `metadata`, `id_to_index`).  A record of this type
always has all four fields; a JSON file missing one would make the Python
`load` raise an untyped `KeyError`. -/
structure StoredData (α : Type) where
  dimension : Nat
  vectors : List (List ℚ)
  metadata : List α
  idToIndex : List (String × Nat)
deriving DecidableEq

/-- Model of `VectorStore.save`: the data dictionary that is serialised. -/
def VectorStore.save (s : VectorStore α) : StoredData α :=
  ⟨s.dimension, s.vectors, s.metadata, s.idToIndex⟩

/-- Model of `VectorStore.load` on a successfully parsed file: each field of
the persisted record is installed verbatim on the store.  The source
performs no consistency check of any kind before installing the data. -/
def VectorStore.load (s : VectorStore α) (d : StoredData α) : VectorStore α :=
  { s with dimension := d.dimension, vectors := d.vectors,
           metadata := d.metadata, idToIndex := d.idToIndex }

/-! ## Internal-consistency invariant of the store -/

/-- The internal-consistency invariant: the row count of `vectors`, the
length of `metadata` and the number of dict entries agree; the dict keys
are pairwise distinct; and the mapped indices are exactly the positions
`0 .. size-1` (a permutation of `List.range size`). -/
def VectorStore.Inv (s : VectorStore α) : Prop :=
  s.vectors.length = s.metadata.length ∧
  s.idToIndex.length = s.metadata.length ∧
  (s.idToIndex.map Prod.fst).Nodup ∧
  (s.idToIndex.map Prod.snd).Perm (List.range s.metadata.length)

/-- One mutating operation of the store interface. -/
inductive StoreOp (α : Type) where
  | add (vector : List ℚ) (metadata : α) (vectorId : Option String)
  | addBatch (vectors : List (List ℚ)) (metadataList : List α)
      (vectorIds : Option (List String))
  | del (vectorId : String)
  | clear

/-- Apply one mutating operation to a store. -/
def VectorStore.applyOp (s : VectorStore α) : StoreOp α → VectorStore α
  | .add v m id => (s.add v m id).2
  | .addBatch vs ms ids => (s.addBatch vs ms ids).2
  | .del id => (s.delete id).2
  | .clear => s.clear

/-- Run a sequence of mutating operations from a fresh store. -/
def VectorStore.run (α : Type) (dimension : Nat) (ops : List (StoreOp α)) :
    VectorStore α :=
  ops.foldl VectorStore.applyOp (VectorStore.empty α dimension)

/-! ## Text preprocessing (`utils/preprocessing.py`)

The text layer is modelled at the ASCII level: `str.lower`, the regex
classes `\w` and `\s`, and `str.split()` are given their ASCII semantics
(CPython additionally handles non-ASCII code points; every input exercised
by this development is ASCII). -/

/-- ASCII model of Python whitespace (`\s`, `str.split()`):
space, tab, newline, carriage return, vertical tab, form feed. -/
def pySpace (c : Char) : Bool :=
  c = ' ' || c = '\t' || c = '\n' || c = '\r' || c = '\x0b' || c = '\x0c'

/-- ASCII model of the regex class `\w`: letters, digits, underscore. -/
def pyWordChar (c : Char) : Bool := c.isAlpha || c.isDigit || c = '_'

/-- The allow-list of `re.sub(r'[^\w\s.,!?-]', '', text)`: word characters,
whitespace and the punctuation `. , ! ? -`. -/
def allowedChar (c : Char) : Bool :=
  pyWordChar c || pySpace c || c = '.' || c = ',' || c = '!' || c = '?' || c = '-'

/-- ASCII model of `str.lower` on one character. -/
def pyLower (c : Char) : Char :=
  if 'A' ≤ c ∧ c ≤ 'Z' then Char.ofNat (c.toNat + 32) else c

/-- ASCII model of `str.lower` on a string. -/
def pyLowerS (s : String) : String := ⟨s.data.map pyLower⟩

/-- Scanner for `re.sub(r'http\S+|www\.\S+', '', text)`.  In normal mode
(`deleting = false`) it tries, at each position, to match the literal
`http` or `www.` followed by at least one non-whitespace character; on a
match the literal is consumed and the scanner enters deleting mode, which
drops the maximal following run of non-whitespace characters (the greedy
`\S+`).  Otherwise it keeps one character and advances, exactly as
`re.sub` scans for the next non-overlapping match. -/
def urlScan : Bool → List Char → List Char
  | _, [] => []
  | true, c :: cs => if pySpace c then c :: urlScan false cs else urlScan true cs
  | false, 'h' :: 't' :: 't' :: 'p' :: c :: cs =>
      if pySpace c then 'h' :: urlScan false ('t' :: 't' :: 'p' :: c :: cs)
      else urlScan true (c :: cs)
  | false, 'w' :: 'w' :: 'w' :: '.' :: c :: cs =>
      if pySpace c then 'w' :: urlScan false ('w' :: 'w' :: '.' :: c :: cs)
      else urlScan true (c :: cs)
  | false, c :: cs => c :: urlScan false cs

/-- `re.sub(r'http\S+|www\.\S+', '', text)`. -/
def urlSub (l : List Char) : List Char := urlScan false l

/-- Does a maximal non-whitespace run contain a match of `\S+@\S+` starting
anywhere inside it?  Equivalently: does it contain `@` at a position with at
least one character before it and one after it inside the run?  (The match,
when it exists, always extends to the end of the run, because the trailing
`\S+` is greedy.) -/
def runHasEmail (r : List Char) : Bool :=
  match r with
  | [] => false
  | _ :: rest => rest.dropLast.contains '@'

/-- Fuelled scanner for `re.sub(r'\S+@\S+', '', text)`: whitespace is kept;
a maximal non-whitespace run is dropped entirely when it contains an email
match (see `runHasEmail`) and kept verbatim otherwise.  The fuel is an
upper bound on the number of scanned characters; each step consumes at
least one character, so `emailSub` supplies the input length. -/
def emailScanF : Nat → List Char → List Char
  | 0, l => l
  | _ + 1, [] => []
  | f + 1, c :: cs =>
      if pySpace c then c :: emailScanF f cs
      else
        let run := c :: cs.takeWhile (fun d => !pySpace d)
        let rest := cs.dropWhile (fun d => !pySpace d)
        if runHasEmail run then emailScanF f rest else run ++ emailScanF f rest

/-- `re.sub(r'\S+@\S+', '', text)`. -/
def emailSub (l : List Char) : List Char := emailScanF l.length l

/-- Fuelled splitter for Python `str.split()` (no separator): maximal
non-whitespace runs, with leading/trailing/repeated whitespace dropped. -/
def pyWordsF : Nat → List Char → List (List Char)
  | 0, _ => []
  | _ + 1, [] => []
  | f + 1, c :: cs =>
      if pySpace c then pyWordsF f cs
      else (c :: cs.takeWhile (fun d => !pySpace d)) ::
        pyWordsF f (cs.dropWhile (fun d => !pySpace d))

/-- Python `str.split()` with no separator. -/
def pyWords (l : List Char) : List (List Char) := pyWordsF l.length l

/-- Python `' '.join(words)`. -/
def pyUnwords : List (List Char) → List Char
  | [] => []
  | [w] => w
  | w :: ws => w ++ ' ' :: pyUnwords ws

/-- `' '.join(text.split())`: collapse whitespace runs to single spaces and
strip the ends. -/
def collapseSpaces (l : List Char) : List Char := pyUnwords (pyWords l)

/-- Model of `clean_text` on the character list: empty-input guard, then
lower-case, URL removal, email removal, character allow-list filter, and
whitespace collapsing, in the order of the source. -/
def cleanTextL (l : List Char) : List Char :=
  if l = [] then []
  else collapseSpaces (List.filter allowedChar (emailSub (urlSub (l.map pyLower))))

/-- Model of `clean_text`. -/
def cleanText (s : String) : String := ⟨cleanTextL s.data⟩

/-- Fuelled scanner for `re.findall(r'\b\w+\b', text)`: the maximal runs of
word characters, in order. -/
def wordRunsF : Nat → List Char → List (List Char)
  | 0, _ => []
  | _ + 1, [] => []
  | f + 1, c :: cs =>
      if pyWordChar c then
        (c :: cs.takeWhile pyWordChar) :: wordRunsF f (cs.dropWhile pyWordChar)
      else wordRunsF f cs

/-- Model of `tokenize`: `clean_text` then `re.findall(r'\b\w+\b', ...)`. -/
def tokenize (s : String) : List String :=
  (wordRunsF (cleanTextL s.data).length (cleanTextL s.data)).map (fun w => String.mk w)

/-- Model of `calculate_text_similarity`: Jaccard index of the two token
sets; 0 when either token set is empty.  (Sets of strings are modelled as
deduplicated lists; the final `if union else 0.0` guard of the source is
unreachable because the union of a non-empty set is non-empty.) -/
def calculateTextSimilarity (t1 t2 : String) : ℚ :=
  let s1 := (tokenize t1).dedup
  let s2 := (tokenize t2).dedup
  if s1 = [] ∨ s2 = [] then 0
  else ((s1.filter (fun t => t ∈ s2)).length : ℚ) / (((s1 ∪ s2).length : Nat) : ℚ)

/-! ## Credit assessor (`models/credit_assessor.py`), level compatibility -/

/-- The `{met, score, message}` record returned by the check helpers of
`CreditAssessor`. -/
structure CheckResult where
  met : Bool
  score : ℚ
  message : String
deriving DecidableEq

/-- The ordinal level map `rules['level_mapping']`, composed with the
`.get(level, 0)` default for keys not in the map. -/
def levelMapping (s : String) : Nat :=
  if s = "certificate" then 1
  else if s = "diploma" then 2
  else if s = "advanced_diploma" then 3
  else if s = "degree" then 4
  else 0

/-- Model of `CreditAssessor._check_level_compatibility`.  The two levels
arrive via `.get('level', '')` (so an absent field is the empty string) and
are lower-cased; an empty level on either side short-circuits to
`met = True, score = 0.5`.  Otherwise both levels are mapped through
`levelMapping` (0 for unmapped names) and the check is met iff the
credential ordinal is at most the program ordinal. -/
def checkLevelCompatibility (mcLevelRaw progLevelRaw : Option String) : CheckResult :=
  let mcLevel := pyLowerS (mcLevelRaw.getD "")
  let progLevel := pyLowerS (progLevelRaw.getD "")
  if mcLevel = "" ∨ progLevel = "" then
    ⟨true, 1/2, "Level information not available"⟩
  else
    let mcNum := levelMapping mcLevel
    let progNum := levelMapping progLevel
    let compatible := decide (mcNum ≤ progNum)
    ⟨compatible, if compatible then 1 else 1/2,
     "Level compatibility: " ++ mcLevel ++ " → " ++ progLevel ++ " (" ++
       (if compatible then "compatible" else "may require review") ++ ")"⟩

/-! ## Fallback embedding seed (`services/embeddings.py`)

`EmbeddingService._fallback_embeddings` seeds numpy with
`np.random.seed(hash(text) % (2**32))`.  Python `hash` on `str` is
CPython's *salted* SipHash-1-3 (SipHash-2-4 before CPython 3.11, equally
salted): the key `(k0, k1)` is derived from the per-process secret
`_Py_HashSecret`, randomised at interpreter start unless `PYTHONHASHSEED`
is fixed.  The model below implements SipHash-1-3 over `Nat` with explicit
`% 2^64` arithmetic, together with CPython's empty-string and `-1 → -2`
special cases; it reproduces CPython 3.11 `hash()` bit-for-bit for fixed
`PYTHONHASHSEED` values.  The vector produced from the seed
(`np.random.randn(384)` followed by normalisation) is a fixed function of
the 32-bit seed and is not modelled further: the seed already determines
it. -/

/-- Addition modulo `2^64`. -/
def add64 (a b : Nat) : Nat := (a + b) % 2 ^ 64

/-- Bitwise xor (operands below `2^64` stay below `2^64`). -/
def xor64 (a b : Nat) : Nat := a ^^^ b

/-- 64-bit left rotation. -/
def rotl64 (x n : Nat) : Nat := ((x <<< n) ||| (x >>> (64 - n))) % 2 ^ 64

/-- The four 64-bit working registers of SipHash. -/
structure SipState where
  v0 : Nat
  v1 : Nat
  v2 : Nat
  v3 : Nat
deriving DecidableEq

/-- One SipHash round. -/
def sipRound (s : SipState) : SipState :=
  let v0 := add64 s.v0 s.v1
  let v1 := rotl64 s.v1 13
  let v1 := xor64 v1 v0
  let v0 := rotl64 v0 32
  let v2 := add64 s.v2 s.v3
  let v3 := rotl64 s.v3 16
  let v3 := xor64 v3 v2
  let v0 := add64 v0 v3
  let v3 := rotl64 v3 21
  let v3 := xor64 v3 v0
  let v2 := add64 v2 v1
  let v1 := rotl64 v1 17
  let v1 := xor64 v1 v2
  let v2 := rotl64 v2 32
  ⟨v0, v1, v2, v3⟩

/-- Little-endian word from up to 8 bytes. -/
def leWord : List Nat → Nat
  | [] => 0
  | b :: rest => (b % 256) + 256 * leWord rest

/-- Compression of all full 8-byte blocks (one round per block); the fuel
is an upper bound on the byte count, each step consuming 8 bytes. -/
def sipBlocksF : Nat → SipState → List Nat → SipState × List Nat
  | 0, s, bytes => (s, bytes)
  | f + 1, s, bytes =>
      if 8 ≤ bytes.length then
        let m := leWord (bytes.take 8)
        let s1 := { s with v3 := xor64 s.v3 m }
        let s2 := sipRound s1
        let s3 := { s2 with v0 := xor64 s2.v0 m }
        sipBlocksF f s3 (bytes.drop 8)
      else (s, bytes)

/-- SipHash-1-3 of a byte string under key `(k0, k1)`, as used by CPython
for `str` hashing since 3.11. -/
def siphash13 (k0 k1 : Nat) (msg : List Nat) : Nat :=
  let k0 := k0 % 2 ^ 64
  let k1 := k1 % 2 ^ 64
  let st0 : SipState :=
    ⟨xor64 0x736f6d6570736575 k0, xor64 0x646f72616e646f6d k1,
     xor64 0x6c7967656e657261 k0, xor64 0x7465646279746573 k1⟩
  let res := sipBlocksF msg.length st0 msg
  let b := ((msg.length % 256) <<< 56) + leWord res.2
  let s1 := { res.1 with v3 := xor64 res.1.v3 b }
  let s2 := sipRound s1
  let s3 := { s2 with v0 := xor64 s2.v0 b }
  let s4 := { s3 with v2 := xor64 s3.v2 0xff }
  let s5 := sipRound (sipRound (sipRound s4))
  xor64 (xor64 s5.v0 s5.v1) (xor64 s5.v2 s5.v3)

/-- CPython `hash` of a `str` given the process hash key, as an unsigned
64-bit value: 0 for the empty string, and the `-1 → -2` adjustment
(`2^64 - 1 → 2^64 - 2` in unsigned form). -/
def pyStrHash (k0 k1 : Nat) (bytes : List Nat) : Nat :=
  if bytes = [] then 0
  else
    let h := siphash13 k0 k1 bytes
    if h = 2 ^ 64 - 1 then 2 ^ 64 - 2 else h

/-- The seed handed to `np.random.seed` by `_fallback_embeddings`:
`hash(text) % (2**32)` (Python per-process hash key `(k0, k1)` made
explicit; for a non-negative signed interpretation the Python `%` agrees
with unsigned `% 2^32` since `2^64 ≡ 0 (mod 2^32)`).  The UTF-8 bytes of
an ASCII string are its code points. -/
def fallbackSeed (k0 k1 : Nat) (text : String) : Nat :=
  pyStrHash k0 k1 (text.data.map Char.toNat) % 2 ^ 32

/-! ## Pathway recommender (`models/pathway_recommender.py`) -/

/-- The metadata record attached to each vector by `train` and read back by
`recommend` via `metadata.get(key, default)`; every field is optional,
matching the open dict semantics. -/
structure PathMeta where
  pathwayId : Option String
  programId : Option String
  institutionId : Option String
  institutionName : Option String
  title : Option String
  level : Option String
  subject : Option String
  credits : Option ℚ
deriving DecidableEq, Inhabited

/-- The micro-credential dict as consumed by `recommend`:
`learning_outcomes` may be a single string or a list of strings. -/
structure Credential where
  title : Option String
  description : Option String
  learningOutcomes : Option (String ⊕ List String)
  level : Option String
  subject : Option String
deriving DecidableEq

/-- The `PathwayRecommendation` dataclass.  Confidence and similarity are
`SimVal`s (exact cosine-similarity values). -/
structure PathwayRecommendation where
  pathwayId : String
  targetProgramId : String
  confidenceScore : SimVal
  reasoning : String
  similarityScore : SimVal
  transferCredits : Option ℚ
  institutionName : Option String
deriving DecidableEq

/-- Python `sep.join(parts)`. -/
def pyJoin (sep : String) : List String → String
  | [] => ""
  | [a] => a
  | a :: rest => a ++ sep ++ pyJoin sep rest

/-- `similarity > t` for a rational threshold `t`, by the same sign
analysis as `simGeQ`. -/
def simGtQ (s : SimVal) (t : ℚ) : Bool :=
  if 0 ≤ s.dot then
    (if t < 0 then true else decide (t * t * s.nsq < s.dot * s.dot))
  else
    (if 0 ≤ t then false else decide (s.dot * s.dot < t * t * s.nsq))

/-- Model of `PathwayRecommender._calculate_confidence`: start from the
similarity, multiply by 1.1 when the lower-cased levels are both non-empty
and equal, multiply by 1.15 when the lower-cased subjects are both
non-empty with lexical similarity above 0.7, cap at 1.0.  The
`student_profile` argument of the source is unused there and omitted here.
Scaling multiplies the exact value `dot/√nsq` by a rational factor. -/
def calculateConfidence (similarity : SimVal) (source : Credential)
    (target : PathMeta) : SimVal :=
  let sourceLevel := pyLowerS (source.level.getD "")
  let targetLevel := pyLowerS (target.level.getD "")
  let c1 :=
    if sourceLevel ≠ "" ∧ targetLevel ≠ "" ∧ sourceLevel = targetLevel then
      SimVal.mk (similarity.dot * (11/10)) similarity.nsq
    else similarity
  let sourceSubject := pyLowerS (source.subject.getD "")
  let targetSubject := pyLowerS (target.subject.getD "")
  let c2 :=
    if sourceSubject ≠ "" ∧ targetSubject ≠ "" ∧
        calculateTextSimilarity sourceSubject targetSubject > 7/10 then
      SimVal.mk (c1.dot * (23/20)) c1.nsq
    else c1
  if simLE c2 ⟨1, 1⟩ then c2 else ⟨1, 1⟩

/-- The `level` value rendered into the reasoning f-string:
Python prints `None` for a missing key. -/
def optLevelStr : Option String → String
  | none => "None"
  | some s => s

/-- Model of `PathwayRecommender._generate_reasoning`: a similarity-band
sentence, an optional level-match clause (note: the source compares the raw
`.get('level')` values here, `None == None` included), an optional
subject-match clause, joined by `". "` with a trailing `"."`. -/
def generateReasoning (similarity : SimVal) (source : Credential)
    (target : PathMeta) : String :=
  let band :=
    if simGtQ similarity (8/10) then
      "High semantic similarity in program content and learning outcomes"
    else if simGtQ similarity (6/10) then
      "Moderate alignment in program objectives and outcomes"
    else "Some overlap in subject matter and skills"
  let extra1 :=
    if source.level = target.level then
      ["Matching credential level (" ++ optLevelStr source.level ++ ")"]
    else []
  let extra2 :=
    if source.subject.getD "" ≠ "" ∧ target.subject.getD "" ≠ "" ∧
        calculateTextSimilarity (source.subject.getD "") (target.subject.getD "") >
          7/10 then
      ["Aligned subject areas"]
    else []
  pyJoin ". " (band :: (extra1 ++ extra2)) ++ "."

/-- The fixed reasoning text of every mock recommendation. -/
def mockReasoning : String :=
  "Mock recommendation based on general subject alignment and credential level compatibility."

/-- Model of `PathwayRecommender._generate_mock_recommendations`:
`min(top_k, 3)` placeholder entries with confidence `0.85 - i*0.1`
(`micro_credential` and `target_institution_id` are accepted and unused, as
in the source). -/
def generateMockRecommendations (_cred : Credential)
    (_targetInstitutionId : Option String) (topK : Nat) :
    List PathwayRecommendation :=
  (List.range (min topK 3)).map (fun i =>
    { pathwayId := "pathway_" ++ toString (i + 1),
      targetProgramId := "program_" ++ toString (i + 1),
      confidenceScore := ⟨17/20 - (i : ℚ) * (1/10), 1⟩,
      reasoning := mockReasoning,
      similarityScore := ⟨17/20 - (i : ℚ) * (1/10), 1⟩,
      transferCredits := some (if i = 0 then 3 else 2),
      institutionName := some ("Institution " ++ toString (i + 1)) })

/-- The result-building loop of `recommend`: institution filter
(`continue`), confidence and reasoning per candidate, and early break once
`top_k` recommendations are accumulated (checked after each append). -/
def buildRecommendations (cred : Credential) (targetInstitutionId : Option String)
    (topK : Nat) :
    List (String × SimVal × PathMeta) → List PathwayRecommendation →
      List PathwayRecommendation
  | [], acc => acc.reverse
  | (vid, sim, meta) :: rest, acc =>
      if (match targetInstitutionId with
          | some tid => tid ≠ "" && meta.institutionId ≠ some tid
          | none => false : Bool) then
        buildRecommendations cred targetInstitutionId topK rest acc
      else
        let rec1 : PathwayRecommendation :=
          { pathwayId := meta.pathwayId.getD vid,
            targetProgramId := meta.programId.getD "unknown",
            confidenceScore := calculateConfidence sim cred meta,
            reasoning := generateReasoning sim cred meta,
            similarityScore := sim,
            transferCredits := meta.credits,
            institutionName := meta.institutionName }
        if topK ≤ acc.length + 1 then (rec1 :: acc).reverse
        else buildRecommendations cred targetInstitutionId topK rest (rec1 :: acc)

/-- Model of `PathwayRecommender.recommend`: build the query text from
title, description and learning outcomes, clean and embed it, return the
mock set when the vector store is empty, otherwise search with `top_k * 2`
and threshold `min_similarity` and run the result-building loop.
`student_profile` is accepted and never used by the source. -/
def recommend (enc : String → List ℚ) (store : VectorStore PathMeta)
    (cred : Credential) (targetInstitutionId : Option String)
    (_studentProfile : Option Unit) (topK : Nat) (minSimilarity : ℚ) :
    List PathwayRecommendation :=
  let textParts :=
    (match cred.title with | some t => [t] | none => []) ++
    (match cred.description with | some d => [d] | none => []) ++
    (match cred.learningOutcomes with
     | some (Sum.inr l) => l
     | some (Sum.inl s) => [s]
     | none => [])
  let queryText := cleanText (pyJoin " " textParts)
  let queryEmbedding := enc queryText
  if store.size = 0 then
    generateMockRecommendations cred targetInstitutionId topK
  else
    buildRecommendations cred targetInstitutionId topK
      (store.search queryEmbedding (topK * 2) (some minSimilarity)) []

/-- Ascending result order used while sorting: similarity nondecreasing,
with exact similarity ties ordered by row index ascending. -/
def simAscRel (a b : Nat × SimVal) : Prop :=
  simLE a.2 b.2 = true ∧ (simLE b.2 a.2 = true → a.1 < b.1)

/-- Descending result order of `search` output entries: similarity
nonincreasing, with exact similarity ties ordered by row index descending
(the later-inserted record first). -/
def simDescRel (a b : Nat × SimVal) : Prop :=
  simLE b.2 a.2 = true ∧ (simLE a.2 b.2 = true → b.1 < a.1)

/-! ## C1: dimension validation of `add` and `search` -/

/-- C1, counterexample.  The spec claims that inserting a vector whose
length differs from the configured dimension `D` fails with
`DimensionMismatch`.  In the source no dimension check exists: adding a
2-component vector to an empty 3-dimensional index succeeds, returns the
generated id and grows the store. -/
theorem c1_dimension_mismatch_accepted :
    ((VectorStore.empty Unit 3).add [1, 2] () none).1 = "vec_0" ∧
    ((VectorStore.empty Unit 3).add [1, 2] () none).2.size = 1 := by
  with_unfolding_all decide

/-- C1, amended.  `add` performs no dimension validation: a vector of any
length is silently accepted into an empty store (the generated id is
returned and `size` becomes 1), and `search` on an empty store returns `[]`
for a query of any length, with no `DimensionMismatch` error anywhere. -/
theorem c1_no_dimension_validation (α : Type) [Inhabited α] (D : Nat)
    (v : List ℚ) (m : α) (q : List ℚ) (topK : Nat) (thr : Option ℚ) :
    ((VectorStore.empty α D).add v m none).1 = "vec_0" ∧
    ((VectorStore.empty α D).add v m none).2.size = 1 ∧
    (VectorStore.empty α D).search q topK thr = [] := by
  refine ⟨by with_unfolding_all rfl, by with_unfolding_all rfl, ?_⟩
  simp [VectorStore.search, VectorStore.searchEntries, VectorStore.empty]

/-! ## C2: the top-k bound and `topK = 0` -/

/-- C2.  The spec claims `len(search(...)) <= topK` always, with an empty
result for `topK = 0`.  In the source the `topK = 0` slice
`[-top_k:] = [-0:] = [0:]` selects the *entire* array, so a search with
`top_k=0` over a 2-record store returns all 2 records; for `top_k = 1` the
bound holds. -/
theorem c2_topk_zero_returns_everything :
    ((((VectorStore.empty Unit 1).add [1] () none).2.add [1] () none).2.size = 2) ∧
    (((((VectorStore.empty Unit 1).add [1] () none).2.add [1] () none).2.search
        [1] 0 none).length = 2) ∧
    (((((VectorStore.empty Unit 1).add [1] () none).2.add [1] () none).2.search
        [1] 1 none).length = 1) := by
  with_unfolding_all decide

/-! ## C3: engine-generated ids -/

/-- C3, counterexample.  After `add, add, delete("vec_0")` the store has one
record with id `vec_1`; the next insert without a caller-supplied id
generates `f"vec_{len(metadata)}"` = `"vec_1"`, which collides with the
live record, so the insert *replaces* it and `size()` stays 1 instead of
increasing to 2. -/
theorem c3_generated_id_collides_after_delete :
    ((((VectorStore.empty Unit 1).add [1] () none).2.add [2] () none).2.delete
        "vec_0").2.size = 1 ∧
    (((((VectorStore.empty Unit 1).add [1] () none).2.add [2] () none).2.delete
        "vec_0").2.add [3] () none).1 = "vec_1" ∧
    (((((VectorStore.empty Unit 1).add [1] () none).2.add [2] () none).2.delete
        "vec_0").2.add [3] () none).2.size = 1 := by
  with_unfolding_all decide

/-- C3, amended.  An insert without a caller-supplied id generates the id
`vec_<len(metadata)>`; whenever that id is not already present (in
particular on any store never touched by `delete` and holding only
engine-generated ids) the insert appends a new record and `size()` grows by
1.  After deletions the generated id can collide with a live id, in which
case the insert replaces that record and `size()` is unchanged. -/
theorem c3_generated_id_appends_when_fresh (α : Type) (s : VectorStore α)
    (v : List ℚ) (m : α)
    (h : alookup s.idToIndex ("vec_" ++ toString s.metadata.length) = none) :
    (s.add v m none).1 = "vec_" ++ toString s.size ∧
    (s.add v m none).2.size = s.size + 1 := by
  unfold VectorStore.add VectorStore.size
  simp only [Option.getD_none, Option.getD_some, h]
  simp

/-- C3, witness for the amended theorem at a concrete store. -/
theorem c3_generated_id_appends_when_fresh_witness :
    ((VectorStore.empty Unit 1).add [5] () none).1 =
      "vec_" ++ toString (VectorStore.empty Unit 1).size ∧
    ((VectorStore.empty Unit 1).add [5] () none).2.size =
      (VectorStore.empty Unit 1).size + 1 :=
  c3_generated_id_appends_when_fresh Unit (VectorStore.empty Unit 1) [5] ()
    (by with_unfolding_all decide)

/-! ## C4: validation on load -/

/-- C4, counterexample.  Loading a persisted record holding one vector but
no metadata and no id mapping succeeds (no `CorruptStore` error exists in
the source) and installs the inconsistent state. -/
theorem c4_load_installs_inconsistent_state :
    ((VectorStore.empty Unit 3).load ⟨3, [[1, 2, 3]], [], []⟩).vectors.length = 1 ∧
    ((VectorStore.empty Unit 3).load ⟨3, [[1, 2, 3]], [], []⟩).metadata.length = 0 := by
  with_unfolding_all decide

/-- C4, amended.  `load` installs every field of the persisted record
verbatim, with no cardinality check and no `CorruptStore` error; when the
persisted cardinalities disagree the loaded store violates the store
invariant. -/
theorem c4_load_performs_no_validation (α : Type) (s : VectorStore α)
    (d : StoredData α) :
    (s.load d).dimension = d.dimension ∧ (s.load d).vectors = d.vectors ∧
    (s.load d).metadata = d.metadata ∧ (s.load d).idToIndex = d.idToIndex ∧
    (d.vectors.length ≠ d.metadata.length → ¬ (s.load d).Inv) := by
  refine ⟨rfl, rfl, rfl, rfl, fun hne hinv => ?_⟩
  exact hne hinv.1

/-- C4, witness for the amended theorem at a concrete inconsistent record. -/
theorem c4_load_performs_no_validation_witness :
    ¬ ((VectorStore.empty Unit 3).load ⟨3, [[1, 2, 3]], [], []⟩).Inv :=
  (c4_load_performs_no_validation Unit (VectorStore.empty Unit 3)
      ⟨3, [[1, 2, 3]], [], []⟩).2.2.2.2 (by with_unfolding_all decide)

/-! ## C10: internal-consistency invariant, helper lemmas -/

theorem alookup_eq_none_iff (m : List (String × Nat)) (k : String) :
    alookup m k = none ↔ k ∉ m.map Prod.fst := by
  induction m with
  | nil => simp [alookup]
  | cons p rest ih =>
      by_cases h : p.1 = k
      · simp [alookup, h]
      · simp [alookup, h, ih, Ne.symm h]

theorem alookup_some_mem {m : List (String × Nat)} {k : String} {v : Nat}
    (h : alookup m k = some v) : (k, v) ∈ m := by
  induction m with
  | nil => simp [alookup] at h
  | cons p rest ih =>
      rcases p with ⟨a, b⟩
      by_cases hp : a = k
      · subst hp
        simp [alookup] at h
        subst h
        exact List.mem_cons_self _ _
      · simp only [alookup, if_neg hp] at h
        exact List.mem_cons_of_mem _ (ih h)

theorem filter_ne_cons_self (k : String) (v : Nat) (rest : List (String × Nat)) :
    (((k, v) :: rest).filter (fun p => p.1 ≠ k)) = rest.filter (fun p => p.1 ≠ k) := by
  simp [List.filter_cons]

theorem filter_ne_cons_other {p : String × Nat} {k : String}
    (hpk : p.1 ≠ k) (rest : List (String × Nat)) :
    ((p :: rest).filter (fun q => q.1 ≠ k)) = p :: rest.filter (fun q => q.1 ≠ k) := by
  simp [List.filter_cons, hpk]

theorem filter_ne_perm_of_nodup {m : List (String × Nat)} {k : String} {v : Nat}
    (hn : (m.map Prod.fst).Nodup) (hm : (k, v) ∈ m) :
    m.Perm ((k, v) :: m.filter (fun p => p.1 ≠ k)) := by
  induction m with
  | nil => simp at hm
  | cons p rest ih =>
      simp only [List.map_cons, List.nodup_cons] at hn
      rcases List.mem_cons.1 hm with h | h
      · subst h
        have hrest : rest.filter (fun q => q.1 ≠ k) = rest := by
          rw [List.filter_eq_self]
          intro a ha
          simp only [ne_eq, decide_eq_true_eq]
          intro hak
          apply hn.1
          have hma : a.1 ∈ List.map Prod.fst rest := List.mem_map_of_mem Prod.fst ha
          rw [hak] at hma
          simpa using hma
        rw [filter_ne_cons_self, hrest]
      · have hpk : p.1 ≠ k := by
          intro hpk
          apply hn.1
          rw [hpk]
          exact List.mem_map_of_mem Prod.fst h
        have step1 : (p :: rest).Perm (p :: (k, v) :: rest.filter (fun q => q.1 ≠ k)) :=
          (ih hn.2 h).cons p
        have step2 : (p :: (k, v) :: rest.filter (fun q => q.1 ≠ k)).Perm
            ((k, v) :: p :: rest.filter (fun q => q.1 ≠ k)) :=
          List.Perm.swap (k, v) p _
        have hres := step1.trans step2
        rw [filter_ne_cons_other hpk]
        exact hres

theorem map_snd_shift_erase {n idx : Nat} (hidx : idx < n) :
    ((List.range n).erase idx).map (fun v => if idx < v then v - 1 else v) =
      List.range (n - 1) := by
  have happ1 := List.range'_append 0 idx (n - idx) 1
  simp only [Nat.one_mul, Nat.zero_add] at happ1
  have hsplit : List.range n = List.range idx ++ List.range' idx (n - idx) := by
    rw [List.range_eq_range', List.range_eq_range', happ1]
    congr 1
    omega
  have h1 : n - idx = (n - idx - 1) + 1 := by omega
  have hsplit2 : List.range' idx (n - idx) = idx :: List.range' (idx + 1) (n - idx - 1) := by
    conv_lhs => rw [h1]
    rw [List.range'_succ]
  have herase : (List.range n).erase idx =
      List.range idx ++ List.range' (idx + 1) (n - idx - 1) := by
    rw [hsplit, hsplit2, List.erase_append_right, List.erase_cons_head]
    intro hmem
    exact absurd (List.mem_range.1 hmem) (by omega)
  rw [herase, List.map_append]
  have hm1 : (List.range idx).map (fun v => if idx < v then v - 1 else v) = List.range idx := by
    conv_rhs => rw [← List.map_id (List.range idx)]
    apply List.map_congr_left
    intro v hv
    have hvlt := List.mem_range.1 hv
    rw [if_neg (by omega)]
    rfl
  have hm2 : (List.range' (idx + 1) (n - idx - 1)).map (fun v => if idx < v then v - 1 else v) =
      List.range' idx (n - idx - 1) := by
    rw [List.range'_eq_map_range, List.range'_eq_map_range, List.map_map]
    apply List.map_congr_left
    intro i _
    simp only [Function.comp_apply]
    rw [if_pos (by omega)]
    omega
  rw [hm1, hm2]
  have happ2 := List.range'_append 0 idx (n - idx - 1) 1
  simp only [Nat.one_mul, Nat.zero_add] at happ2
  rw [List.range_eq_range', List.range_eq_range', happ2]
  congr 1
  omega

theorem inv_empty (α : Type) (D : Nat) : (VectorStore.empty α D).Inv := by
  refine ⟨rfl, rfl, List.nodup_nil, ?_⟩
  simp [VectorStore.empty]

theorem inv_add {α : Type} (s : VectorStore α) (v : List ℚ) (m : α)
    (id : Option String) (h : s.Inv) : ((s.add v m id).2).Inv := by
  obtain ⟨h1, h2, h3, h4⟩ := h
  cases hl : alookup s.idToIndex (id.getD ("vec_" ++ toString s.metadata.length)) with
  | some idx =>
      simp only [VectorStore.add, hl]
      exact ⟨by simpa using h1, by simpa using h2, by simpa using h3, by simpa using h4⟩
  | none =>
      have hnotin : (id.getD ("vec_" ++ toString s.metadata.length)) ∉ s.idToIndex.map Prod.fst :=
        (alookup_eq_none_iff _ _).1 hl
      simp only [VectorStore.add, hl]
      refine ⟨?_, ?_, ?_, ?_⟩
      · simp [h1]
      · simp [h2]
      · simp only [List.map_append, List.map_cons, List.map_nil]
        rw [List.nodup_append]
        refine ⟨h3, List.nodup_singleton _, ?_⟩
        intro a ha hb
        simp only [List.mem_singleton] at hb
        exact hnotin (hb ▸ ha)
      · simp only [List.map_append, List.map_cons, List.map_nil, List.length_append,
          List.length_cons, List.length_nil]
        rw [List.range_succ]
        exact h4.append_right _

theorem inv_delete {α : Type} (s : VectorStore α) (id : String) (h : s.Inv) :
    ((s.delete id).2).Inv := by
  obtain ⟨h1, h2, h3, h4⟩ := h
  cases hl : alookup s.idToIndex id with
  | none =>
      simp only [VectorStore.delete, hl]
      exact ⟨h1, h2, h3, h4⟩
  | some idx =>
      simp only [VectorStore.delete, hl]
      have hmem : (id, idx) ∈ s.idToIndex := alookup_some_mem hl
      have hidxmem : idx ∈ List.range s.metadata.length :=
        h4.mem_iff.1 (List.mem_map_of_mem Prod.snd hmem)
      have hidx : idx < s.metadata.length := List.mem_range.1 hidxmem
      have hperm : s.idToIndex.Perm ((id, idx) :: s.idToIndex.filter (fun p => p.1 ≠ id)) :=
        filter_ne_perm_of_nodup h3 hmem
      have hlenf := hperm.length_eq
      simp only [List.length_cons] at hlenf
      have hfst : ∀ p : String × Nat,
          ((fun p : String × Nat => if idx < p.2 then (p.1, p.2 - 1) else p) p).1 = p.1 := by
        intro p
        by_cases hp : idx < p.2 <;> simp [hp]
      have hsnd : ∀ p : String × Nat,
          ((fun p : String × Nat => if idx < p.2 then (p.1, p.2 - 1) else p) p).2 =
            (fun w => if idx < w then w - 1 else w) p.2 := by
        intro p
        by_cases hp : idx < p.2 <;> simp [hp]
      refine ⟨?_, ?_, ?_, ?_⟩
      · show (s.vectors.eraseIdx idx).length = (s.metadata.eraseIdx idx).length
        rw [List.length_eraseIdx, List.length_eraseIdx, h1]
      · show ((s.idToIndex.filter (fun p => p.1 ≠ id)).map
            (fun p => if idx < p.2 then (p.1, p.2 - 1) else p)).length =
            (s.metadata.eraseIdx idx).length
        rw [List.length_map, List.length_eraseIdx, if_pos hidx]
        omega
      · show (((s.idToIndex.filter (fun p => p.1 ≠ id)).map
            (fun p => if idx < p.2 then (p.1, p.2 - 1) else p)).map Prod.fst).Nodup
        have heq : ((s.idToIndex.filter (fun p => p.1 ≠ id)).map
            (fun p => if idx < p.2 then (p.1, p.2 - 1) else p)).map Prod.fst =
            (s.idToIndex.filter (fun p => p.1 ≠ id)).map Prod.fst := by
          rw [List.map_map]
          exact List.map_congr_left fun p _ => hfst p
        rw [heq]
        exact h3.sublist ((List.filter_sublist _).map Prod.fst)
      · show (((s.idToIndex.filter (fun p => p.1 ≠ id)).map
            (fun p => if idx < p.2 then (p.1, p.2 - 1) else p)).map Prod.snd).Perm
            (List.range (s.metadata.eraseIdx idx).length)
        have hmapmap : ((s.idToIndex.filter (fun p => p.1 ≠ id)).map
            (fun p => if idx < p.2 then (p.1, p.2 - 1) else p)).map Prod.snd =
            ((s.idToIndex.filter (fun p => p.1 ≠ id)).map Prod.snd).map
              (fun w => if idx < w then w - 1 else w) := by
          rw [List.map_map, List.map_map]
          exact List.map_congr_left fun p _ => hsnd p
        rw [hmapmap]
        have hsndperm : (s.idToIndex.map Prod.snd).Perm
            (idx :: (s.idToIndex.filter (fun p => p.1 ≠ id)).map Prod.snd) := by
          simpa using hperm.map Prod.snd
        have hrest : ((s.idToIndex.filter (fun p => p.1 ≠ id)).map Prod.snd).Perm
            ((List.range s.metadata.length).erase idx) :=
          ((@List.cons_perm_iff_perm_erase Nat _ idx
            ((s.idToIndex.filter (fun p => p.1 ≠ id)).map Prod.snd)
            (List.range s.metadata.length)).1 (hsndperm.symm.trans h4)).2
        have hfinal := hrest.map (fun w => if idx < w then w - 1 else w)
        rw [map_snd_shift_erase hidx] at hfinal
        rw [List.length_eraseIdx, if_pos hidx]
        exact hfinal

theorem inv_foldl_add {α : Type} (l : List (List ℚ × α × String)) :
    ∀ (acc : List String × VectorStore α), acc.2.Inv →
      (l.foldl (fun acc t =>
        (acc.1 ++ [(acc.2.add t.1 t.2.1 (some t.2.2)).1],
         (acc.2.add t.1 t.2.1 (some t.2.2)).2)) acc).2.Inv := by
  induction l with
  | nil =>
      intro acc h
      exact h
  | cons t rest ih =>
      intro acc h
      simp only [List.foldl_cons]
      exact ih _ (inv_add acc.2 t.1 t.2.1 (some t.2.2) h)

theorem inv_addBatch {α : Type} (s : VectorStore α) (vs : List (List ℚ))
    (ms : List α) (ids : Option (List String)) (h : s.Inv) :
    ((s.addBatch vs ms ids).2).Inv := by
  have hgen := inv_foldl_add
    (vs.zip (ms.zip (ids.getD
      ((List.range vs.length).map (fun i => "vec_" ++ toString (s.metadata.length + i))))))
    ([], s) h
  exact hgen

theorem inv_clear {α : Type} (s : VectorStore α) : (s.clear).Inv := by
  refine ⟨rfl, rfl, List.nodup_nil, ?_⟩
  simp [VectorStore.clear]

theorem inv_applyOp {α : Type} (s : VectorStore α) (op : StoreOp α) (h : s.Inv) :
    (s.applyOp op).Inv := by
  cases op with
  | add v m id => exact inv_add s v m id h
  | addBatch vs ms ids => exact inv_addBatch s vs ms ids h
  | del id => exact inv_delete s id h
  | clear => exact inv_clear s

theorem inv_get_isSome {α : Type} {s : VectorStore α} (h : s.Inv) {k : String} {i : Nat}
    (hk : alookup s.idToIndex k = some i) : i < s.size ∧ (s.get k).isSome := by
  obtain ⟨h1, _, _, h4⟩ := h
  have hmem : (k, i) ∈ s.idToIndex := alookup_some_mem hk
  have hi : i < s.metadata.length :=
    List.mem_range.1 (h4.mem_iff.1 (List.mem_map_of_mem Prod.snd hmem))
  refine ⟨hi, ?_⟩
  simp only [VectorStore.get, hk]
  rw [List.get?_eq_get (by omega : i < s.vectors.length),
    List.get?_eq_get (by omega : i < s.metadata.length)]
  rfl

/-- C10.  Internal-consistency invariant: after any sequence of `add`,
`add_batch`, `delete` and `clear` operations from a fresh store, the row
count of `vectors`, the length of `metadata` and the number of
`id_to_index` entries agree, the mapped positions are exactly
`0 .. size-1` with no duplicates, and `get` succeeds on every mapped id. -/
theorem c10_store_invariant (α : Type) (D : Nat) (ops : List (StoreOp α)) :
    (VectorStore.run α D ops).Inv ∧
    (∀ k i, alookup (VectorStore.run α D ops).idToIndex k = some i →
      i < (VectorStore.run α D ops).size ∧ ((VectorStore.run α D ops).get k).isSome) := by
  have hinv : (VectorStore.run α D ops).Inv := by
    unfold VectorStore.run
    have hgen : ∀ (l : List (StoreOp α)) (s : VectorStore α), s.Inv →
        (l.foldl VectorStore.applyOp s).Inv := by
      intro l
      induction l with
      | nil => intro s hs; exact hs
      | cons op rest ih =>
          intro s hs
          simp only [List.foldl_cons]
          exact ih _ (inv_applyOp s op hs)
    exact hgen ops _ (inv_empty α D)
  exact ⟨hinv, fun k i hk => inv_get_isSome hinv hk⟩

/-- C10, witness: after a concrete add/add/delete sequence the surviving id
`vec_1` is mapped to position 0, below `size`, and `get` succeeds on it. -/
theorem c10_store_invariant_witness :
    0 < (VectorStore.run Unit 1 [.add [1] () none, .add [2] () none, .del "vec_0"]).size ∧
    ((VectorStore.run Unit 1 [.add [1] () none, .add [2] () none, .del "vec_0"]).get
      "vec_1").isSome :=
  (c10_store_invariant Unit 1 [.add [1] () none, .add [2] () none, .del "vec_0"]).2
    "vec_1" 0 (by with_unfolding_all decide)

/-! ## C9: ordering of search results -/

theorem simLE_iff {a b : SimVal} : simLE a b = true ↔
    (a.dot < 0 ∧ 0 ≤ b.dot) ∨
    (a.dot < 0 ∧ b.dot < 0 ∧ b.dot * b.dot * a.nsq ≤ a.dot * a.dot * b.nsq) ∨
    (0 ≤ a.dot ∧ 0 ≤ b.dot ∧ a.dot * a.dot * b.nsq ≤ b.dot * b.dot * a.nsq) := by
  unfold simLE
  split_ifs with h1 h2 h3
  · simp [h1, h2]
  · have hb : b.dot < 0 := not_le.1 h2
    simp only [decide_eq_true_eq]
    constructor
    · intro h
      exact Or.inr (Or.inl ⟨h1, hb, h⟩)
    · rintro (⟨_, hge⟩ | ⟨_, _, h⟩ | ⟨hge, _, _⟩)
      · exact absurd hge (not_le.2 hb)
      · exact h
      · exact absurd hge (not_le.2 h1)
  · have ha : 0 ≤ a.dot := not_lt.1 h1
    simp only [Bool.false_eq_true, false_iff]
    rintro (⟨hlt, _⟩ | ⟨hlt, _, _⟩ | ⟨_, hge, _⟩)
    · exact absurd hlt (not_lt.2 ha)
    · exact absurd hlt (not_lt.2 ha)
    · exact absurd hge (not_le.2 h3)
  · have ha : 0 ≤ a.dot := not_lt.1 h1
    have hb : 0 ≤ b.dot := not_lt.1 h3
    simp only [decide_eq_true_eq]
    constructor
    · intro h
      exact Or.inr (Or.inr ⟨ha, hb, h⟩)
    · rintro (⟨hlt, _⟩ | ⟨hlt, _, _⟩ | ⟨_, _, h⟩)
      · exact absurd hlt (not_lt.2 ha)
      · exact absurd hlt (not_lt.2 ha)
      · exact h

theorem simLE_total (a b : SimVal) : simLE a b = true ∨ simLE b a = true := by
  rw [simLE_iff, simLE_iff]
  rcases lt_or_le a.dot 0 with ha | ha <;> rcases lt_or_le b.dot 0 with hb | hb
  · rcases le_total (b.dot * b.dot * a.nsq) (a.dot * a.dot * b.nsq) with h | h
    · exact Or.inl (Or.inr (Or.inl ⟨ha, hb, h⟩))
    · exact Or.inr (Or.inr (Or.inl ⟨hb, ha, h⟩))
  · exact Or.inl (Or.inl ⟨ha, hb⟩)
  · exact Or.inr (Or.inl ⟨hb, ha⟩)
  · rcases le_total (a.dot * a.dot * b.nsq) (b.dot * b.dot * a.nsq) with h | h
    · exact Or.inl (Or.inr (Or.inr ⟨ha, hb, h⟩))
    · exact Or.inr (Or.inr (Or.inr ⟨hb, ha, h⟩))

theorem simLE_of_not_simLE {a b : SimVal} (h : ¬ simLE b a = true) : simLE a b = true := by
  rcases simLE_total a b with h1 | h1
  · exact h1
  · exact absurd h1 h

theorem simLE_trans {a b c : SimVal} (hna : 0 < a.nsq) (hnb : 0 < b.nsq) (hnc : 0 < c.nsq)
    (h1 : simLE a b = true) (h2 : simLE b c = true) : simLE a c = true := by
  rw [simLE_iff] at h1 h2 ⊢
  rcases h1 with ⟨ha, hb⟩ | ⟨ha, hb, hab⟩ | ⟨ha, hb, hab⟩ <;>
    rcases h2 with ⟨hb2, hc⟩ | ⟨hb2, hc, hbc⟩ | ⟨hb2, hc, hbc⟩
  · exact absurd hb (not_le.2 hb2)
  · exact absurd hb (not_le.2 hb2)
  · exact Or.inl ⟨ha, hc⟩
  · exact Or.inl ⟨ha, hc⟩
  · refine Or.inr (Or.inl ⟨ha, hc, ?_⟩)
    have hbb : 0 < b.dot * b.dot * b.nsq :=
      mul_pos (mul_pos_of_neg_of_neg hb hb) hnb
    have key := mul_le_mul hab hbc
      (mul_nonneg (mul_self_nonneg c.dot) hnb.le)
      (mul_nonneg (mul_self_nonneg a.dot) hnb.le)
    nlinarith [key, hbb]
  · exact absurd hb2 (not_le.2 hb)
  · exact absurd hb (not_le.2 hb2)
  · exact absurd hb (not_le.2 hb2)
  · refine Or.inr (Or.inr ⟨ha, hc, ?_⟩)
    rcases hb.eq_or_lt with hb0 | hbpos
    · rw [← hb0] at hab hbc
      simp only [mul_zero, zero_mul] at hab hbc
      have haz : a.dot * a.dot = 0 :=
        le_antisymm (by nlinarith [hab, hnb, mul_self_nonneg a.dot]) (mul_self_nonneg _)
      have ha0 : a.dot = 0 := mul_self_eq_zero.1 haz
      rw [ha0]
      simp only [mul_zero, zero_mul]
      exact mul_nonneg (mul_self_nonneg c.dot) hna.le
    · have hbb : 0 < b.dot * b.dot * b.nsq := mul_pos (mul_pos hbpos hbpos) hnb
      have key := mul_le_mul hab hbc
        (mul_nonneg (mul_self_nonneg b.dot) hnc.le)
        (mul_nonneg (mul_self_nonneg b.dot) hna.le)
      nlinarith [key, hbb]

theorem mem_simInsert {x y : Nat × SimVal} {l : List (Nat × SimVal)} :
    y ∈ simInsert x l ↔ y = x ∨ y ∈ l := by
  induction l with
  | nil => simp [simInsert]
  | cons z zs ih =>
      unfold simInsert
      by_cases h : simLT x.2 z.2 = true
      · rw [if_pos h]
        simp only [List.mem_cons]
      · rw [if_neg h]
        simp only [List.mem_cons, ih]
        tauto

theorem pairwise_simInsert {x : Nat × SimVal} {l : List (Nat × SimVal)}
    (hposx : 0 < x.2.nsq) (hposl : ∀ y ∈ l, 0 < y.2.nsq)
    (hidx : ∀ y ∈ l, y.1 < x.1)
    (hp : List.Pairwise simAscRel l) :
    List.Pairwise simAscRel (simInsert x l) := by
  induction l with
  | nil => simp [simInsert]
  | cons z zs ih =>
      rcases List.pairwise_cons.1 hp with ⟨hz, hzs⟩
      unfold simInsert
      by_cases h : simLT x.2 z.2 = true
      · rw [if_pos h]
        have hnotzx : ¬ simLE z.2 x.2 = true := by
          unfold simLT at h
          simpa using h
        have hxz : simLE x.2 z.2 = true := simLE_of_not_simLE hnotzx
        refine List.pairwise_cons.2 ⟨?_, hp⟩
        intro w hw
        rcases List.mem_cons.1 hw with hwz | hwzs
        · subst hwz
          exact ⟨hxz, fun hzx => absurd hzx hnotzx⟩
        · have hzw : simLE z.2 w.2 = true := (hz w hwzs).1
          have hxw : simLE x.2 w.2 = true :=
            simLE_trans hposx (hposl z (List.mem_cons_self z zs))
              (hposl w (List.mem_cons_of_mem z hwzs)) hxz hzw
          refine ⟨hxw, fun hwx => ?_⟩
          have hzx : simLE z.2 x.2 = true :=
            simLE_trans (hposl z (List.mem_cons_self z zs))
              (hposl w (List.mem_cons_of_mem z hwzs)) hposx hzw hwx
          exact absurd hzx hnotzx
      · rw [if_neg h]
        have hzx : simLE z.2 x.2 = true := by
          unfold simLT at h
          simpa using h
        refine List.pairwise_cons.2 ⟨?_, ?_⟩
        · intro w hw
          rcases mem_simInsert.1 hw with hwx | hwzs
          · subst hwx
            exact ⟨hzx, fun _ => hidx z (List.mem_cons_self z zs)⟩
          · exact hz w hwzs
        · exact ih (fun y hy => hposl y (List.mem_cons_of_mem z hy))
            (fun y hy => hidx y (List.mem_cons_of_mem z hy)) hzs

theorem pairwise_simSortAsc_aux (l : List (Nat × SimVal)) :
    ∀ acc : List (Nat × SimVal),
      (∀ y ∈ acc, 0 < y.2.nsq) → (∀ y ∈ l, 0 < y.2.nsq) →
      (∀ y ∈ acc, ∀ x ∈ l, y.1 < x.1) →
      List.Pairwise (fun a b : Nat × SimVal => a.1 < b.1) l →
      List.Pairwise simAscRel acc →
      List.Pairwise simAscRel (l.foldl (fun acc x => simInsert x acc) acc) ∧
      (∀ y ∈ l.foldl (fun acc x => simInsert x acc) acc, y ∈ acc ∨ y ∈ l) := by
  induction l with
  | nil =>
      intro acc hacc _ _ _ hpacc
      exact ⟨hpacc, fun y hy => Or.inl hy⟩
  | cons x xs ih =>
      intro acc hacc hl hlt hpl hpacc
      simp only [List.foldl_cons]
      rcases List.pairwise_cons.1 hpl with ⟨hxxs, hpxs⟩
      have hposx : 0 < x.2.nsq := hl x (List.mem_cons_self x xs)
      have hacc2 : ∀ y ∈ simInsert x acc, 0 < y.2.nsq := by
        intro y hy
        rcases mem_simInsert.1 hy with hyx | hyacc
        · subst hyx; exact hposx
        · exact hacc y hyacc
      have hlt2 : ∀ y ∈ simInsert x acc, ∀ z ∈ xs, y.1 < z.1 := by
        intro y hy z hz
        rcases mem_simInsert.1 hy with hyx | hyacc
        · subst hyx; exact hxxs z hz
        · exact hlt y hyacc z (List.mem_cons_of_mem x hz)
      have hp2 : List.Pairwise simAscRel (simInsert x acc) :=
        pairwise_simInsert hposx hacc
          (fun y hy => hlt y hy x (List.mem_cons_self x xs)) hpacc
      have hres := ih (simInsert x acc) hacc2
        (fun y hy => hl y (List.mem_cons_of_mem x hy)) hlt2 hpxs hp2
      refine ⟨hres.1, fun y hy => ?_⟩
      rcases hres.2 y hy with hyin | hyxs
      · rcases mem_simInsert.1 hyin with hyx | hyacc
        · exact Or.inr (hyx ▸ List.mem_cons_self x xs)
        · exact Or.inl hyacc
      · exact Or.inr (List.mem_cons_of_mem x hyxs)

theorem pairwise_simSortAsc {l : List (Nat × SimVal)}
    (hpos : ∀ y ∈ l, 0 < y.2.nsq)
    (hidx : List.Pairwise (fun a b : Nat × SimVal => a.1 < b.1) l) :
    List.Pairwise simAscRel (simSortAsc l) := by
  have := pairwise_simSortAsc_aux l [] (by simp) hpos (by simp) hidx List.Pairwise.nil
  exact this.1

theorem pairwise_searchEntries {α : Type} (s : VectorStore α) (q : List ℚ)
    (topK : Nat) (thr : Option ℚ)
    (hq : 0 < normSq q) (hv : ∀ v ∈ s.vectors, 0 < normSq v) :
    List.Pairwise simDescRel (s.searchEntries q topK thr) := by
  unfold VectorStore.searchEntries
  by_cases hemp : s.vectors.length = 0
  · rw [if_pos hemp]
    exact List.Pairwise.nil
  · rw [if_neg hemp]
    simp only []
    set sims := s.vectors.map
      (fun v => SimVal.mk (dotQ v q) (normSq v * normSq q)) with hsims
    set indexed := (List.range sims.length).zip sims with hindexed
    have hposidx : ∀ e ∈ indexed, 0 < e.2.nsq := by
      rintro ⟨i, sv⟩ he
      have h2 : sv ∈ sims := (List.of_mem_zip he).2
      rw [hsims] at h2
      rcases List.mem_map.1 h2 with ⟨v, hvmem, hveq⟩
      rw [← hveq]
      exact mul_pos (hv v hvmem) hq
    have hidxlt : List.Pairwise (fun a b : Nat × SimVal => a.1 < b.1) indexed := by
      rw [List.pairwise_iff_getElem]
      intro i j hi hj hij
      have hi2 : i < (List.range sims.length).length := by
        simp only [hindexed, List.length_zip, List.length_range] at hi
        simp only [List.length_range]
        omega
      have hj2 : j < (List.range sims.length).length := by
        simp only [hindexed, List.length_zip, List.length_range] at hj
        simp only [List.length_range]
        omega
      have hi3 : i < sims.length := by simpa using hi2
      have hj3 : j < sims.length := by simpa using hj2
      simp only [hindexed, List.getElem_zip, List.getElem_range]
      exact hij
    have hfilter : ∀ filtered : List (Nat × SimVal),
        (∀ e ∈ filtered, e ∈ indexed) →
        List.Pairwise (fun a b : Nat × SimVal => a.1 < b.1) filtered →
        List.Pairwise simDescRel
          (if topK = 0 ∧ topK < filtered.length then (simSortAsc filtered).reverse
           else (simSortAsc filtered).reverse.take topK) := by
      intro filtered hsub hplt
      have hposf : ∀ e ∈ filtered, 0 < e.2.nsq := fun e he => hposidx e (hsub e he)
      have hsorted : List.Pairwise simAscRel (simSortAsc filtered) :=
        pairwise_simSortAsc hposf hplt
      have hdesc : List.Pairwise simDescRel (simSortAsc filtered).reverse := by
        rw [List.pairwise_reverse]
        exact hsorted.imp (fun h => ⟨h.1, h.2⟩)
      by_cases hcond : topK = 0 ∧ topK < filtered.length
      · rw [if_pos hcond]
        exact hdesc
      · rw [if_neg hcond]
        exact List.Pairwise.sublist (List.take_sublist _ _) hdesc
    cases thr with
    | none =>
        exact hfilter indexed (fun e he => he) hidxlt
    | some t =>
        exact hfilter (indexed.filter (fun p => simGeQ p.2 t))
          (fun e he => (List.mem_filter.1 he).1) (hidxlt.filter _)

/-- C9, counterexample.  Two records with identical vectors (so exactly
equal similarity): the search output lists the later-inserted `vec_1`
before the earlier-inserted `vec_0`, contradicting the claimed
earlier-inserted-first tie-break.  (The source reverses an ascending
argsort, so equal keys come out in reversed insertion order.) -/
theorem c9_tie_order_counterexample :
    ((((VectorStore.empty Unit 1).add [1] () none).2.add [1] () none).2.search [1] 10
        none).map (fun r => r.1) = ["vec_1", "vec_0"] ∧
    ((((VectorStore.empty Unit 1).add [1] () none).2.add [1] () none).2.search [1] 10
        none).map (fun r => r.2.1) = [⟨1, 1⟩, ⟨1, 1⟩] := by
  with_unfolding_all decide

/-- C9, amended.  For a query and stored vectors of nonzero norm, `search`
returns results ordered by similarity descending; exact similarity ties are
ordered by row position descending, i.e. the later-inserted record first
(not earlier-first as the spec claims). -/
theorem c9_search_sorted_desc_ties_later_first (α : Type) [Inhabited α]
    (s : VectorStore α) (q : List ℚ) (topK : Nat) (thr : Option ℚ)
    (hq : 0 < normSq q) (hv : ∀ v ∈ s.vectors, 0 < normSq v) :
    List.Pairwise (fun a b : String × SimVal × α => simLE b.2.1 a.2.1 = true)
      (s.search q topK thr) ∧
    List.Pairwise simDescRel (s.searchEntries q topK thr) := by
  have hp := pairwise_searchEntries s q topK thr hq hv
  refine ⟨?_, hp⟩
  unfold VectorStore.search
  exact hp.map _ (fun a b h => h.1)

/-- C9, witness for the amended theorem at a concrete two-record store. -/
theorem c9_search_sorted_witness :
    List.Pairwise (fun a b : String × SimVal × Unit => simLE b.2.1 a.2.1 = true)
      ((((VectorStore.empty Unit 1).add [1] () none).2.add [2] () none).2.search [1] 3
        none) ∧
    List.Pairwise simDescRel
      ((((VectorStore.empty Unit 1).add [1] () none).2.add [2] () none).2.searchEntries
        [1] 3 none) :=
  c9_search_sorted_desc_ties_later_first Unit
    (((VectorStore.empty Unit 1).add [1] () none).2.add [2] () none).2 [1] 3 none
    (by with_unfolding_all decide)
    (by with_unfolding_all decide)

/-! ## C7: idempotence of `clean_text`, helper lemmas -/

theorem toNat_ofNat_small {n : Nat} (h : n < 55296) : (Char.ofNat n).toNat = n := by
  have hv : n.isValidChar := Or.inl h
  simp only [Char.ofNat, dif_pos hv]
  simp [Char.ofNatAux, Char.toNat, UInt32.toNat, UInt32.ofNatCore]

theorem pyLower_idem (c : Char) : pyLower (pyLower c) = pyLower c := by
  unfold pyLower
  by_cases h : 'A' ≤ c ∧ c ≤ 'Z'
  · rw [if_pos h]
    have h65 : 65 ≤ c.toNat := by rw [Char.le_def] at h; exact h.1
    have h90 : c.toNat ≤ 90 := by rw [Char.le_def] at h; exact h.2
    have htn : (Char.ofNat (c.toNat + 32)).toNat = c.toNat + 32 :=
      toNat_ofNat_small (by omega)
    rw [if_neg]
    intro hcontra
    have hc2 : 65 ≤ (Char.ofNat (c.toNat + 32)).toNat ∧
        (Char.ofNat (c.toNat + 32)).toNat ≤ 90 := by
      rw [Char.le_def] at hcontra
      exact ⟨hcontra.1, hcontra.2⟩
    omega
  · rw [if_neg h, if_neg h]

theorem urlScan_cons_default {d : Char} {cs : List Char}
    (h1 : ∀ (e : Char) (es : List Char), ¬ (d = 'h' ∧ cs = 't' :: 't' :: 'p' :: e :: es))
    (h2 : ∀ (e : Char) (es : List Char), ¬ (d = 'w' ∧ cs = 'w' :: 'w' :: '.' :: e :: es)) :
    urlScan false (d :: cs) = d :: urlScan false cs := by
  rw [urlScan.eq_def]
  split
  · simp_all
  · simp_all
  · rename_i heq
    exfalso
    injection heq with hd hcs
    exact h1 _ _ ⟨hd, hcs⟩
  · rename_i heq
    exfalso
    injection heq with hd hcs
    exact h2 _ _ ⟨hd, hcs⟩
  · rename_i heq
    injection heq with hd hcs
    rw [hd, hcs]

theorem mem_urlScan {c : Char} :
    ∀ {mode : Bool} {l : List Char}, c ∈ urlScan mode l → c ∈ l := by
  intro mode l
  induction mode, l using urlScan.induct with
  | case1 mode => simp [urlScan]
  | case2 d cs hsp ih =>
      rw [urlScan, if_pos hsp]
      intro h
      rcases List.mem_cons.1 h with h | h
      · exact h ▸ List.mem_cons_self _ _
      · exact List.mem_cons_of_mem _ (ih h)
  | case3 d cs hsp ih =>
      rw [urlScan, if_neg hsp]
      intro h
      exact List.mem_cons_of_mem _ (ih h)
  | case4 d cs hsp ih =>
      rw [urlScan, if_pos hsp]
      intro h
      rcases List.mem_cons.1 h with h | h
      · exact h ▸ List.mem_cons_self _ _
      · exact List.mem_cons_of_mem _ (ih h)
  | case5 d cs hsp ih =>
      rw [urlScan, if_neg hsp]
      intro h
      have hmem := ih h
      simp only [List.mem_cons] at hmem ⊢
      tauto
  | case6 d cs hsp ih =>
      rw [urlScan, if_pos hsp]
      intro h
      rcases List.mem_cons.1 h with h | h
      · exact h ▸ List.mem_cons_self _ _
      · exact List.mem_cons_of_mem _ (ih h)
  | case7 d cs hsp ih =>
      rw [urlScan, if_neg hsp]
      intro h
      have hmem := ih h
      simp only [List.mem_cons] at hmem ⊢
      tauto
  | case8 d cs hne1 hne2 ih =>
      rw [urlScan_cons_default
        (fun e es hand => hne1 e es hand.1 hand.2)
        (fun e es hand => hne2 e es hand.1 hand.2)]
      intro h
      rcases List.mem_cons.1 h with h | h
      · exact h ▸ List.mem_cons_self _ _
      · exact List.mem_cons_of_mem _ (ih h)

theorem mem_emailScanF {c : Char} :
    ∀ {f : Nat} {l : List Char}, c ∈ emailScanF f l → c ∈ l := by
  intro f
  induction f with
  | zero =>
      intro l h
      rw [emailScanF] at h
      exact h
  | succ f ih =>
      intro l h
      cases l with
      | nil =>
          rw [emailScanF] at h
          exact h
      | cons d cs =>
          rw [emailScanF] at h
          by_cases hsp : pySpace d = true
          · rw [if_pos hsp] at h
            rcases List.mem_cons.1 h with h | h
            · exact h ▸ List.mem_cons_self _ _
            · exact List.mem_cons_of_mem _ (ih h)
          · rw [if_neg hsp] at h
            by_cases hre : runHasEmail (d :: cs.takeWhile (fun e => !pySpace e)) = true
            · rw [if_pos hre] at h
              exact List.mem_cons_of_mem _ ((List.dropWhile_sublist _).mem (ih h))
            · rw [if_neg hre] at h
              rcases List.mem_append.1 h with h | h
              · rcases List.mem_cons.1 h with h | h
                · exact h ▸ List.mem_cons_self _ _
                · exact List.mem_cons_of_mem _ ((List.takeWhile_sublist _).mem h)
              · exact List.mem_cons_of_mem _ ((List.dropWhile_sublist _).mem (ih h))

theorem emailScanF_of_no_at :
    ∀ (f : Nat) (l : List Char), '@' ∉ l → emailScanF f l = l := by
  intro f
  induction f with
  | zero =>
      intro l _
      rw [emailScanF]
  | succ f ih =>
      intro l hno
      cases l with
      | nil => rw [emailScanF]
      | cons d cs =>
          rw [emailScanF]
          by_cases hsp : pySpace d = true
          · rw [if_pos hsp, ih cs (fun hc => hno (List.mem_cons_of_mem _ hc))]
          · rw [if_neg hsp]
            have hre : runHasEmail (d :: cs.takeWhile (fun e => !pySpace e)) = false := by
              unfold runHasEmail
              rw [← Bool.not_eq_true]
              intro hcon
              have h1 : '@' ∈ (cs.takeWhile (fun e => !pySpace e)).dropLast := by
                simpa using hcon
              exact hno (List.mem_cons_of_mem _
                ((List.takeWhile_sublist _).mem ((List.dropLast_sublist _).mem h1)))
            show (if runHasEmail (d :: cs.takeWhile (fun e => !pySpace e)) = true
                then emailScanF f (cs.dropWhile (fun e => !pySpace e))
                else (d :: cs.takeWhile (fun e => !pySpace e)) ++
                  emailScanF f (cs.dropWhile (fun e => !pySpace e))) = d :: cs
            rw [hre, if_neg Bool.false_ne_true,
              ih _ (fun hc => hno (List.mem_cons_of_mem _ ((List.dropWhile_sublist _).mem hc))),
              List.cons_append, List.takeWhile_append_dropWhile]

theorem pyWordsF_nil : ∀ f : Nat, pyWordsF f [] = [] := by
  intro f
  cases f <;> rw [pyWordsF]

theorem pyWordsF_congr :
    ∀ (f g : Nat) (l : List Char), l.length ≤ f → l.length ≤ g →
      pyWordsF f l = pyWordsF g l := by
  intro f
  induction f with
  | zero =>
      intro g l hf _
      have : l = [] := List.length_eq_zero.1 (Nat.le_zero.1 hf)
      rw [this, pyWordsF_nil, pyWordsF_nil]
  | succ f ih =>
      intro g l hf hg
      cases l with
      | nil => rw [pyWordsF_nil, pyWordsF_nil]
      | cons d cs =>
          cases g with
          | zero => simp at hg
          | succ g =>
              rw [pyWordsF, pyWordsF]
              by_cases hsp : pySpace d = true
              · rw [if_pos hsp, if_pos hsp]
                exact ih g cs (by simpa using Nat.le_of_succ_le_succ hf)
                  (by simpa using Nat.le_of_succ_le_succ hg)
              · rw [if_neg hsp, if_neg hsp]
                have hlen := (@List.dropWhile_sublist Char cs (fun e => !pySpace e)).length_le
                rw [ih g (cs.dropWhile (fun e => !pySpace e))
                  (by simp only [List.length_cons] at hf; omega)
                  (by simp only [List.length_cons] at hg; omega)]

theorem pyWords_space_cons {c : Char} (l : List Char) (hsp : pySpace c = true) :
    pyWords (c :: l) = pyWords l := by
  rw [pyWords, List.length_cons, pyWordsF, if_pos hsp]
  rfl

theorem pyWords_word_cons {c : Char} (l : List Char) (hsp : ¬ pySpace c = true) :
    pyWords (c :: l) =
      (c :: l.takeWhile (fun d => !pySpace d)) ::
        pyWords (l.dropWhile (fun d => !pySpace d)) := by
  rw [pyWords, List.length_cons, pyWordsF, if_neg hsp]
  have hlen := (@List.dropWhile_sublist Char l (fun e => !pySpace e)).length_le
  rw [pyWordsF_congr l.length (l.dropWhile (fun d => !pySpace d)).length _ (by omega) le_rfl]
  rfl

theorem pyWords_spec :
    ∀ (f : Nat) (l : List Char) (w : List Char), w ∈ pyWordsF f l →
      (w ≠ [] ∧ ∀ c ∈ w, pySpace c = false) ∧ ∀ c ∈ w, c ∈ l := by
  intro f
  induction f with
  | zero =>
      intro l w hw
      rw [pyWordsF] at hw
      simp at hw
  | succ f ih =>
      intro l w hw
      cases l with
      | nil =>
          rw [pyWordsF] at hw
          simp at hw
      | cons d cs =>
          rw [pyWordsF] at hw
          by_cases hsp : pySpace d = true
          · rw [if_pos hsp] at hw
            have := ih cs w hw
            exact ⟨this.1, fun c hc => List.mem_cons_of_mem _ (this.2 c hc)⟩
          · rw [if_neg hsp] at hw
            rcases List.mem_cons.1 hw with hw | hw
            · subst hw
              refine ⟨⟨by simp, ?_⟩, ?_⟩
              · intro c hc
                rcases List.mem_cons.1 hc with hc | hc
                · subst hc
                  simpa using hsp
                · have := List.mem_takeWhile_imp hc
                  simpa using this
              · intro c hc
                rcases List.mem_cons.1 hc with hc | hc
                · exact hc ▸ List.mem_cons_self _ _
                · exact List.mem_cons_of_mem _ ((List.takeWhile_sublist _).mem hc)
            · have := ih _ w hw
              exact ⟨this.1, fun c hc =>
                List.mem_cons_of_mem _ ((List.dropWhile_sublist _).mem (this.2 c hc))⟩

theorem mem_pyUnwords {c : Char} :
    ∀ ws : List (List Char), c ∈ pyUnwords ws → (∃ w ∈ ws, c ∈ w) ∨ c = ' ' := by
  intro ws
  induction ws with
  | nil =>
      intro h
      rw [pyUnwords] at h
      simp at h
  | cons w ws ih =>
      intro h
      cases ws with
      | nil =>
          rw [pyUnwords] at h
          exact Or.inl ⟨w, List.mem_cons_self _ _, h⟩
      | cons v vs =>
          have heq : pyUnwords (w :: v :: vs) = w ++ ' ' :: pyUnwords (v :: vs) := rfl
          rw [heq] at h
          rcases List.mem_append.1 h with h | h
          · exact Or.inl ⟨w, List.mem_cons_self _ _, h⟩
          · rcases List.mem_cons.1 h with h | h
            · exact Or.inr h
            · rcases ih h with ⟨u, hu, hcu⟩ | h
              · exact Or.inl ⟨u, List.mem_cons_of_mem _ hu, hcu⟩
              · exact Or.inr h

theorem pyWords_pyUnwords :
    ∀ ws : List (List Char),
      (∀ w ∈ ws, w ≠ [] ∧ ∀ c ∈ w, pySpace c = false) →
      pyWords (pyUnwords ws) = ws := by
  intro ws
  induction ws with
  | nil =>
      intro _
      rw [pyUnwords]
      rfl
  | cons w ws ih =>
      intro hspec
      obtain ⟨hne, hns⟩ := hspec w (List.mem_cons_self _ _)
      obtain ⟨d, ds, rfl⟩ := List.exists_cons_of_ne_nil hne
      have hd : ¬ pySpace d = true := by
        rw [hns d (List.mem_cons_self _ _)]
        simp
      have hds : ∀ c ∈ ds, (fun e => !pySpace e) c = true := by
        intro c hc
        simp [hns c (List.mem_cons_of_mem _ hc)]
      cases ws with
      | nil =>
          rw [pyUnwords, pyWords_word_cons _ hd,
            List.takeWhile_eq_self_iff.2 hds,
            List.dropWhile_eq_nil_iff.2 hds]
          rfl
      | cons v vs =>
          have hequw : pyUnwords ((d :: ds) :: v :: vs) =
              (d :: ds) ++ ' ' :: pyUnwords (v :: vs) := rfl
          rw [hequw, List.cons_append, pyWords_word_cons _ hd]
          have hspf : (!pySpace ' ') = false := by decide
          have htake : (ds ++ ' ' :: pyUnwords (v :: vs)).takeWhile
              (fun e => !pySpace e) = ds := by
            rw [List.takeWhile_append,
              if_pos (by rw [List.takeWhile_eq_self_iff.2 hds]),
              List.takeWhile_cons]
            simp [hspf]
          have hdrop : (ds ++ ' ' :: pyUnwords (v :: vs)).dropWhile
              (fun e => !pySpace e) = ' ' :: pyUnwords (v :: vs) := by
            rw [List.dropWhile_append,
              if_pos (by rw [List.dropWhile_eq_nil_iff.2 hds]; rfl),
              List.dropWhile_cons]
            simp [hspf]
          rw [htake, hdrop, pyWords_space_cons _ (by decide),
            ih (fun u hu => hspec u (List.mem_cons_of_mem _ hu))]

theorem collapseSpaces_idem (l : List Char) :
    collapseSpaces (collapseSpaces l) = collapseSpaces l := by
  unfold collapseSpaces
  rw [pyWords_pyUnwords (pyWords l) (fun w hw => (pyWords_spec _ _ w hw).1)]

theorem mem_collapseSpaces {c : Char} {l : List Char}
    (h : c ∈ collapseSpaces l) : c ∈ l ∨ c = ' ' := by
  unfold collapseSpaces at h
  rcases mem_pyUnwords _ h with ⟨w, hw, hcw⟩ | h
  · exact Or.inl ((pyWords_spec _ _ w hw).2 c hcw)
  · exact Or.inr h

theorem cleanTextL_chars {l : List Char} {c : Char} (h : c ∈ cleanTextL l) :
    allowedChar c = true ∧ pyLower c = c := by
  unfold cleanTextL at h
  by_cases hl : l = []
  · rw [if_pos hl] at h
    simp at h
  · rw [if_neg hl] at h
    rcases mem_collapseSpaces h with h | h
    · have hallow := (List.mem_filter.1 h).2
      have hmem := (List.mem_filter.1 h).1
      have hmem2 : c ∈ l.map pyLower := mem_urlScan (mem_emailScanF hmem)
      rcases List.mem_map.1 hmem2 with ⟨d, _, hd⟩
      exact ⟨hallow, hd ▸ pyLower_idem d⟩
    · subst h
      exact ⟨by decide, by decide⟩

theorem cleanTextL_no_at {l : List Char} (h : '@' ∈ cleanTextL l) : False := by
  have := (cleanTextL_chars h).1
  simp [allowedChar, pyWordChar, pySpace] at this

/-- C7, counterexample.  `clean_text` is not idempotent: in
`"htt~p://x"` the character filter deletes `~`, `:` and `/`, gluing the
remains into `"httpx"`; a second pass then matches `http\S+` and deletes
everything.  So `clean(t) = "httpx"` but `clean(clean(t)) = ""`. -/
theorem c7_clean_not_idempotent :
    cleanText "htt~p://x" = "httpx" ∧
    cleanText (cleanText "htt~p://x") = "" ∧
    cleanText (cleanText "htt~p://x") ≠ cleanText "htt~p://x" := by
  refine ⟨?_, ?_, ?_⟩ <;> with_unfolding_all decide

/-- C7, amended.  `clean_text` is idempotent on exactly the inputs whose
cleaned form is not re-tokenised into a URL-like match: whenever the URL
removal pass acts as the identity on `clean(t)` (no `http\S+` or
`www.\S+` match inside the cleaned text), a second clean is the identity:
the cleaned text is already lower-case, contains no `@` (so the email pass
is the identity), contains only allow-listed characters (so the filter is
the identity), and has collapsed whitespace. -/
theorem c7_clean_idempotent_unless_url_recreated (t : String)
    (hurl : urlSub (cleanText t).data = (cleanText t).data) :
    cleanText (cleanText t) = cleanText t := by
  apply String.ext
  show cleanTextL (cleanText t).data = (cleanText t).data
  have hdata : (cleanText t).data = cleanTextL t.data := rfl
  by_cases hs : (cleanText t).data = []
  · rw [cleanTextL, if_pos hs, hs]
  · rw [cleanTextL, if_neg hs]
    have hchars : ∀ c ∈ (cleanText t).data, allowedChar c = true ∧ pyLower c = c := by
      intro c hc
      rw [hdata] at hc
      exact cleanTextL_chars hc
    have hmap : (cleanText t).data.map pyLower = (cleanText t).data := by
      conv_rhs => rw [← List.map_id (cleanText t).data]
      exact List.map_congr_left (fun c hc => (hchars c hc).2)
    rw [hmap, hurl]
    have hemail : emailSub (cleanText t).data = (cleanText t).data := by
      unfold emailSub
      refine emailScanF_of_no_at _ _ (fun hat => ?_)
      rw [hdata] at hat
      exact cleanTextL_no_at hat
    rw [hemail]
    rw [List.filter_eq_self.2 (fun c hc => (hchars c hc).1)]
    have hcoll : ∃ y, (cleanText t).data = collapseSpaces y := by
      rw [hdata]
      unfold cleanTextL
      by_cases hl : t.data = []
      · rw [if_pos hl]
        exact ⟨[], rfl⟩
      · rw [if_neg hl]
        exact ⟨_, rfl⟩
    rcases hcoll with ⟨y, hy⟩
    rw [hy, collapseSpaces_idem]

/-- C7, witness for the amended theorem: a concrete text whose cleaned form
contains no URL-like token, on which cleaning is idempotent. -/
theorem c7_clean_idempotent_witness :
    cleanText (cleanText "Hello,   WORLD!  x@y.z visit me") =
      cleanText "Hello,   WORLD!  x@y.z visit me" :=
  c7_clean_idempotent_unless_url_recreated "Hello,   WORLD!  x@y.z visit me"
    (by with_unfolding_all decide)

/-! ## C8: level-compatibility check -/

/-- C8, counterexample.  The claim says a credential/program pair in which
either level is *not in the ordinal map* reports met with score 0.5.  In
the source a present-but-unmapped level is mapped to ordinal 0 by
`.get(level, 0)`: for credential level `degree` (4) against program level
`bootcamp` (unmapped, 0), the check reports NOT met (score 0.5); for
credential `bootcamp` (0) against program `certificate` (1) it reports met
with score 1.0, not 0.5. -/
theorem c8_unmapped_level_counterexample :
    (checkLevelCompatibility (some "degree") (some "bootcamp")).met = false ∧
    (checkLevelCompatibility (some "bootcamp") (some "certificate")).met = true ∧
    (checkLevelCompatibility (some "bootcamp") (some "certificate")).score = 1 := by
  refine ⟨?_, ?_, ?_⟩ <;> with_unfolding_all decide

/-- C8, amended.  When either lower-cased level is absent or empty the
check reports met with score 0.5; when both are non-empty each level is
mapped to its ordinal with unmapped names mapped to 0, and the check is met
iff the credential ordinal is at most the program ordinal, with score 1.0
when met and 0.5 otherwise. -/
theorem c8_level_compatibility_characterisation (mcl pl : Option String) :
    (pyLowerS (mcl.getD "") = "" ∨ pyLowerS (pl.getD "") = "" →
      checkLevelCompatibility mcl pl =
        ⟨true, 1/2, "Level information not available"⟩) ∧
    (pyLowerS (mcl.getD "") ≠ "" → pyLowerS (pl.getD "") ≠ "" →
      (checkLevelCompatibility mcl pl).met =
        decide (levelMapping (pyLowerS (mcl.getD "")) ≤
          levelMapping (pyLowerS (pl.getD ""))) ∧
      (checkLevelCompatibility mcl pl).score =
        (if (checkLevelCompatibility mcl pl).met then 1 else 1/2)) := by
  unfold checkLevelCompatibility
  by_cases h : pyLowerS (mcl.getD "") = "" ∨ pyLowerS (pl.getD "") = ""
  · rw [if_pos h]
    exact ⟨fun _ => rfl, fun h1 h2 => absurd h (by tauto)⟩
  · rw [if_neg h]
    refine ⟨fun hcon => absurd hcon h, fun _ _ => ⟨rfl, ?_⟩⟩
    simp only []

/-- C8, witness for the amended characterisation: absent level → met with
score 0.5; mapped `degree` vs `certificate` → not met. -/
theorem c8_level_compatibility_witness :
    checkLevelCompatibility none (some "degree") =
      ⟨true, 1/2, "Level information not available"⟩ ∧
    ((checkLevelCompatibility (some "degree") (some "certificate")).met =
      decide (levelMapping (pyLowerS "degree") ≤ levelMapping (pyLowerS "certificate")) ∧
     (checkLevelCompatibility (some "degree") (some "certificate")).score =
      (if (checkLevelCompatibility (some "degree") (some "certificate")).met
       then 1 else 1/2)) :=
  ⟨(c8_level_compatibility_characterisation none (some "degree")).1
      (by with_unfolding_all decide),
   (c8_level_compatibility_characterisation (some "degree") (some "certificate")).2
      (by with_unfolding_all decide) (by with_unfolding_all decide)⟩

/-! ## C5: empty-index degraded recommendations -/

theorem pyJoin_cons_data (sep : String) (a : String) (rest : List String) :
    ∃ suffix : List Char, (pyJoin sep (a :: rest)).data = a.data ++ suffix := by
  cases rest with
  | nil => exact ⟨[], by simp [pyJoin]⟩
  | cons b bs =>
      refine ⟨sep.data ++ (pyJoin sep (b :: bs)).data, ?_⟩
      show (a ++ sep ++ pyJoin sep (b :: bs)).data = _
      rw [String.data_append, String.data_append, List.append_assoc]

theorem generateReasoning_starts_with_band (sim : SimVal) (src : Credential)
    (tgt : PathMeta) :
    ∃ (band : String) (suffix : List Char),
      (band = "High semantic similarity in program content and learning outcomes" ∨
       band = "Moderate alignment in program objectives and outcomes" ∨
       band = "Some overlap in subject matter and skills") ∧
      (generateReasoning sim src tgt).data = band.data ++ suffix := by
  unfold generateReasoning
  simp only []
  set band := (if simGtQ sim (8/10) = true then
      "High semantic similarity in program content and learning outcomes"
    else if simGtQ sim (6/10) = true then
      "Moderate alignment in program objectives and outcomes"
    else "Some overlap in subject matter and skills") with hband
  have hbandmem : band = "High semantic similarity in program content and learning outcomes" ∨
      band = "Moderate alignment in program objectives and outcomes" ∨
      band = "Some overlap in subject matter and skills" := by
    rw [hband]
    by_cases h1 : simGtQ sim (8/10) = true
    · rw [if_pos h1]; exact Or.inl rfl
    · rw [if_neg h1]
      by_cases h2 : simGtQ sim (6/10) = true
      · rw [if_pos h2]; exact Or.inr (Or.inl rfl)
      · rw [if_neg h2]; exact Or.inr (Or.inr rfl)
  obtain ⟨suffix, hsuffix⟩ := pyJoin_cons_data ". " band _
  refine ⟨band, suffix ++ ".".data, hbandmem, ?_⟩
  rw [String.data_append, hsuffix, List.append_assoc]

theorem not_mock_of_band {s : String}
    (h : ∃ (band : String) (suffix : List Char),
      (band = "High semantic similarity in program content and learning outcomes" ∨
       band = "Moderate alignment in program objectives and outcomes" ∨
       band = "Some overlap in subject matter and skills") ∧
      s.data = band.data ++ suffix) :
    s ≠ mockReasoning := by
  rcases h with ⟨band, suffix, hmem, hdata⟩
  intro heq
  have hpref : band.data <+: mockReasoning.data := ⟨suffix, by rw [← hdata, heq]⟩
  rcases hmem with h | h | h <;> subst h
  · exact absurd hpref (by decide)
  · exact absurd hpref (by decide)
  · exact absurd hpref (by decide)

theorem buildRecommendations_not_mock (cred : Credential) (tid : Option String)
    (topK : Nat) :
    ∀ (results : List (String × SimVal × PathMeta))
      (acc : List PathwayRecommendation),
      (∀ r ∈ acc, r.reasoning ≠ mockReasoning) →
      ∀ r ∈ buildRecommendations cred tid topK results acc,
        r.reasoning ≠ mockReasoning := by
  intro results
  induction results with
  | nil =>
      intro acc hacc r hr
      rw [buildRecommendations] at hr
      exact hacc r (List.mem_reverse.1 hr)
  | cons p rest ih =>
      rcases p with ⟨vid, sim, meta⟩
      intro acc hacc r hr
      rw [buildRecommendations.eq_def] at hr
      simp only [] at hr
      have hrec1 : (generateReasoning sim cred meta) ≠ mockReasoning :=
        not_mock_of_band (generateReasoning_starts_with_band sim cred meta)
      split at hr
      · exact ih acc hacc r hr
      · split at hr
        · have hr2 := List.mem_reverse.1 hr
          rcases List.mem_cons.1 hr2 with hr2 | hr2
          · subst hr2
            exact hrec1
          · exact hacc r hr2
        · refine ih _ (fun q hq => ?_) r hr
          rcases List.mem_cons.1 hq with hq | hq
          · subst hq
            exact hrec1
          · exact hacc q hq

/-- C5.  Against an empty Vector Index, `recommend` never fails and never
returns an empty list: for any `topK ≥ 3` it returns exactly 3 placeholder
recommendations with descending synthetic confidences 0.85, 0.75, 0.65
(exact rationals in this model), every one carrying the fixed mock
reasoning text; and the degraded mode is detectable, because every
recommendation produced from a non-empty index has a reasoning string that
differs from the mock text (it always starts with one of the three
similarity-band sentences). -/
theorem c5_empty_index_mock_recommendations :
    (∀ (enc : String → List ℚ) (store : VectorStore PathMeta) (cred : Credential)
        (tid : Option String) (sp : Option Unit) (topK : Nat) (minSim : ℚ),
      store.size = 0 → 3 ≤ topK →
        ((recommend enc store cred tid sp topK minSim).map
            (fun r => r.confidenceScore) = [⟨17/20, 1⟩, ⟨3/4, 1⟩, ⟨13/20, 1⟩] ∧
         (recommend enc store cred tid sp topK minSim).length = 3 ∧
         ∀ r ∈ recommend enc store cred tid sp topK minSim,
           r.reasoning = mockReasoning)) ∧
    (simLT ⟨3/4, 1⟩ ⟨17/20, 1⟩ = true ∧ simLT ⟨13/20, 1⟩ ⟨3/4, 1⟩ = true) ∧
    (∀ (enc : String → List ℚ) (store : VectorStore PathMeta) (cred : Credential)
        (tid : Option String) (sp : Option Unit) (topK : Nat) (minSim : ℚ),
      store.size ≠ 0 →
        ∀ r ∈ recommend enc store cred tid sp topK minSim,
          r.reasoning ≠ mockReasoning) := by
  refine ⟨?_, ⟨by with_unfolding_all decide, by with_unfolding_all decide⟩, ?_⟩
  · intro enc store cred tid sp topK minSim hsize htopk
    unfold recommend
    simp only []
    rw [if_pos hsize]
    unfold generateMockRecommendations
    rw [Nat.min_eq_right htopk]
    refine ⟨?_, ?_, ?_⟩
    · with_unfolding_all decide
    · with_unfolding_all decide
    · intro r hr
      have : r.reasoning ∈ ((List.range 3).map (fun i =>
          ({ pathwayId := "pathway_" ++ toString (i + 1),
             targetProgramId := "program_" ++ toString (i + 1),
             confidenceScore := ⟨17/20 - (i : ℚ) * (1/10), 1⟩,
             reasoning := mockReasoning,
             similarityScore := ⟨17/20 - (i : ℚ) * (1/10), 1⟩,
             transferCredits := some (if i = 0 then 3 else 2),
             institutionName := some ("Institution " ++ toString (i + 1)) } :
            PathwayRecommendation))).map (fun r => r.reasoning) :=
        List.mem_map_of_mem _ hr
      simp only [List.map_map] at this
      rcases List.mem_map.1 this with ⟨i, _, hi⟩
      exact hi.symm
  · intro enc store cred tid sp topK minSim hsize r hr
    unfold recommend at hr
    simp only [] at hr
    rw [if_neg hsize] at hr
    exact buildRecommendations_not_mock cred tid topK _ [] (by simp) r hr

/-- C5, witness: the mock path at `topK = 5` on a fresh empty store, and
the detectability part at a concrete one-record store whose single result
carries a band-based (non-mock) reasoning string. -/
theorem c5_empty_index_mock_recommendations_witness :
    ((recommend (fun _ => [1]) (VectorStore.empty PathMeta 384)
        ⟨some "Data Science", some "Learn data", none, some "certificate", some "data"⟩
        none none 5 (1/2)).map (fun r => r.confidenceScore) =
      [⟨17/20, 1⟩, ⟨3/4, 1⟩, ⟨13/20, 1⟩] ∧
     (recommend (fun _ => [1]) (VectorStore.empty PathMeta 384)
        ⟨some "Data Science", some "Learn data", none, some "certificate", some "data"⟩
        none none 5 (1/2)).length = 3 ∧
     ∀ r ∈ recommend (fun _ => [1]) (VectorStore.empty PathMeta 384)
        ⟨some "Data Science", some "Learn data", none, some "certificate", some "data"⟩
        none none 5 (1/2), r.reasoning = mockReasoning) ∧
    ({ pathwayId := "pw1", targetProgramId := "prog1",
       confidenceScore := ⟨1, 1⟩,
       reasoning := "High semantic similarity in program content and learning outcomes. Matching credential level (certificate). Aligned subject areas.",
       similarityScore := ⟨1, 1⟩, transferCredits := some 3,
       institutionName := some "Inst A" } : PathwayRecommendation).reasoning ≠
      mockReasoning :=
  ⟨c5_empty_index_mock_recommendations.1 (fun _ => [1])
      (VectorStore.empty PathMeta 384)
      ⟨some "Data Science", some "Learn data", none, some "certificate", some "data"⟩
      none none 5 (1/2) rfl (by decide),
   c5_empty_index_mock_recommendations.2.2 (fun _ => [1])
      (⟨1, [[1]], [⟨some "pw1", some "prog1", some "A", some "Inst A", some "T",
        some "certificate", some "data", some 3⟩], [("pw1", 0)]⟩ : VectorStore PathMeta)
      ⟨some "Data Science", some "Learn data", none, some "certificate", some "data"⟩
      none none 1 (1/2) (by with_unfolding_all decide) _
      (by with_unfolding_all decide)⟩

/-! ## C6: cross-process determinism of the fallback embedding seed -/

/-- C6.  The fallback embedding seeds numpy with `hash(text) % 2**32`, and
CPython string hashing is salted by the per-process hash key: for the same
text `"a"`, the process key `(0, 0)` and the process key `(0, 1)` produce
different RNG seeds, so two processes with different hash secrets produce
different fallback vectors for the same text.  (Within one process the seed
— hence the vector — is a fixed function of the text.) -/
theorem c6_fallback_seed_depends_on_process_salt :
    fallbackSeed 0 0 "a" = 3097171987 ∧
    fallbackSeed 0 1 "a" = 669379600 ∧
    fallbackSeed 0 0 "a" ≠ fallbackSeed 0 1 "a" := by
  refine ⟨?_, ?_, ?_⟩ <;> decide
